import Mathlib

/-!
Verification of the heuristic document-understanding pipeline
(`ai-workers/processors/*.py`): a shallow embedding of the
table aligner, layout reading order, heuristic table-grid extraction,
structuring engine and error corrector, with theorems settling the
specified properties.

Modelling conventions:
* Python strings are `List Char` (wrapped in `String` at the interfaces);
  only ASCII case/character classes are modelled, matching the inputs the
  pipeline handles.
* Python `float` values are modelled by `PyFloat` (exact rationals plus
  infinities and nan).  All concrete values appearing in theorems are
  exactly representable, so the rational model agrees with IEEE doubles
  on every statement proved here.  Rational values are always built with
  `mkRat` and compared through their `num`/`den` fields (the `ratAdd`,
  `ratSub`, ... helpers below), which are the kernel-computable exact
  operations on `ℚ`.
* Regular expressions from the source are compiled by hand into
  deterministic matchers; where the pattern needs backtracking the
  matcher searches candidates in the same greedy order as the `re` engine.
-/

namespace Structa

/-- Python whitespace characters (`str.strip`, `\s`), ASCII range. -/
def isPySpace (c : Char) : Bool :=
  c = ' ' || c = '\t' || c = '\n' || c = '\r' || c = '\x0b' || c = '\x0c'

/-- Python `str.strip()`: drop whitespace from both ends. -/
def pyStrip (cs : List Char) : List Char :=
  ((cs.dropWhile isPySpace).reverse.dropWhile isPySpace).reverse

/-- Python `text.split(chr(10))`: split at newlines, keeping empty pieces. -/
def splitOnNl : List Char → List (List Char)
  | [] => [[]]
  | '\n' :: rest => [] :: splitOnNl rest
  | c :: rest =>
    match splitOnNl rest with
    | [] => [[c]]
    | l :: ls => (c :: l) :: ls

/-- Python `text.split()` with no argument: split on whitespace runs, no empties. -/
def pySplitWs : List Char → List (List Char)
  | [] => []
  | c :: rest =>
    let ws := pySplitWs rest
    if isPySpace c then ws
    else
      match rest with
      | [] => [[c]]
      | r :: _ =>
        if isPySpace r then [c] :: ws
        else
          match ws with
          | w :: tailWs => (c :: w) :: tailWs
          | [] => [[c]]

/-- Python `" ".flatten(items)`. -/
def joinSpaces : List String → String
  | [] => ""
  | [s] => s
  | s :: rest => s ++ " " ++ joinSpaces rest

/-- Decimal value of a digit list. -/
def natOfDigits (ds : List Char) : ℕ :=
  ds.foldl (fun n c => 10 * n + (c.toNat - 48)) 0

/-!  Exact rational arithmetic, written so that every operation reduces in
the kernel: values are built with `mkRat` and all comparisons go through
the `num`/`den` fields (the denominator of a `Rat` is always positive). -/

def ratAdd (a b : ℚ) : ℚ := mkRat (a.num * b.den + b.num * a.den) (a.den * b.den)

def ratSub (a b : ℚ) : ℚ := mkRat (a.num * b.den - b.num * a.den) (a.den * b.den)

def ratMul (a b : ℚ) : ℚ := mkRat (a.num * b.num) (a.den * b.den)

/-- Exact division (division by zero yields `0`; every use in the
pipeline is guarded by a non-zero test, mirroring the Python source). -/
def ratDiv (a b : ℚ) : ℚ :=
  if 0 ≤ b.num then mkRat (a.num * b.den) (a.den * b.num.natAbs)
  else mkRat (-(a.num * b.den)) (a.den * b.num.natAbs)

def ratLt (a b : ℚ) : Bool := a.num * b.den < b.num * a.den

def ratLe (a b : ℚ) : Bool := a.num * b.den ≤ b.num * a.den

def ratAbs (a : ℚ) : ℚ := if a.num < 0 then mkRat (-a.num) a.den else a

def ratMax (a b : ℚ) : ℚ := if ratLe a b then b else a

def ratMin (a b : ℚ) : ℚ := if ratLe a b then a else b

/-- Collect a Python numeric-literal digit run: digits with single
underscores allowed between digits (`\d(_?\d)*`).  Returns the digits
collected and the unconsumed rest.  A leading underscore is the caller's
responsibility to reject. -/
def digitRun : List Char → List Char × List Char
  | [] => ([], [])
  | [c] => if c.isDigit then ([c], []) else ([], [c])
  | c :: d :: rest =>
    if c.isDigit then
      let p := digitRun (d :: rest)
      (c :: p.1, p.2)
    else if c = '_' && d.isDigit then
      let p := digitRun rest
      (d :: p.1, p.2)
    else ([], c :: d :: rest)

/-- A digit run that must start with a digit (Python rejects `_1`). -/
def parseUDigits (cs : List Char) : Option (List Char × List Char) :=
  match cs with
  | c :: _ => if c.isDigit then some (digitRun cs) else none
  | [] => none

/-- Python float values: exact finite rationals, infinities, nan. -/
inductive PyFloat where
  | fin (q : ℚ)
  | pinf
  | ninf
  | nan
deriving DecidableEq

def PyFloat.neg : PyFloat → PyFloat
  | .fin q => .fin (-q)
  | .pinf => .ninf
  | .ninf => .pinf
  | .nan => .nan

/-- `x / 100` on a Python float. -/
def PyFloat.div100 : PyFloat → PyFloat
  | .fin q => .fin (mkRat q.num (q.den * 100))
  | .pinf => .pinf
  | .ninf => .ninf
  | .nan => .nan

/-- Exact value of a decimal literal `ip . fp × 10 ^ e` where `flen` is
the number of fractional digits. -/
def decValue (ip fp flen : ℕ) (e : ℤ) : ℚ :=
  let n : ℤ := (ip * 10 ^ flen + fp : ℕ)
  match e with
  | .ofNat k => mkRat (n * ((10 ^ k : ℕ) : ℤ)) (10 ^ flen)
  | .negSucc k => mkRat n (10 ^ flen * 10 ^ (k + 1))

/-- Optional exponent suffix of a float literal (`(e|E)[+-]?digits`),
requiring the whole rest to be consumed. -/
def pyExp : List Char → Option ℤ
  | [] => some 0
  | c :: rest =>
    if c = 'e' || c = 'E' then
      let p : ℤ × List Char :=
        match rest with
        | '+' :: r => (1, r)
        | '-' :: r => (-1, r)
        | r => (1, r)
      match parseUDigits p.2 with
      | some (ds, []) => some (p.1 * (natOfDigits ds : ℤ))
      | _ => none
    else none

/-- Finite decimal part of a Python float literal:
`digits [. digits?] [exp]` or `. digits [exp]`, exact rational value. -/
def pyDecimal (cs : List Char) : Option ℚ :=
  match parseUDigits cs with
  | some (ip, rest) =>
    match rest with
    | '.' :: rest2 =>
      match parseUDigits rest2 with
      | some (fp, rest3) =>
        (pyExp rest3).map fun e => decValue (natOfDigits ip) (natOfDigits fp) fp.length e
      | none =>
        (pyExp rest2).map fun e => decValue (natOfDigits ip) 0 0 e
    | _ => (pyExp rest).map fun e => decValue (natOfDigits ip) 0 0 e
  | none =>
    match cs with
    | '.' :: rest2 =>
      match parseUDigits rest2 with
      | some (fp, rest3) =>
        (pyExp rest3).map fun e => decValue 0 (natOfDigits fp) fp.length e
      | none => none
    | _ => none

/-- Unsigned body of `float(s)`: `inf`, `infinity`, `nan` (case-insensitive)
or a decimal literal. -/
def pyFloatUnsigned (cs : List Char) : Option PyFloat :=
  let lower := cs.map Char.toLower
  if lower = "inf".data || lower = "infinity".data then some .pinf
  else if lower = "nan".data then some .nan
  else (pyDecimal cs).map PyFloat.fin

/-- Python `float(s)`: surrounding whitespace allowed, optional sign,
then the unsigned body.  `none` models `ValueError`. -/
def pyFloatOf (cs : List Char) : Option PyFloat :=
  match pyStrip cs with
  | '+' :: r => pyFloatUnsigned r
  | '-' :: r => (pyFloatUnsigned r).map PyFloat.neg
  | r => pyFloatUnsigned r

/-- Python `int(s)` (base 10): whitespace, optional sign, digit run.
`none` models `ValueError`. -/
def pyIntOf (cs : List Char) : Option ℤ :=
  let p : ℤ × List Char :=
    match pyStrip cs with
    | '+' :: r => (1, r)
    | '-' :: r => (-1, r)
    | r => (1, r)
  match parseUDigits p.2 with
  | some (ds, []) => some (p.1 * (natOfDigits ds : ℤ))
  | _ => none

/-- Values produced by the pipeline cells and key-value coercion
(Python `None | float | int | str | bool`). -/
inductive PyValue where
  | none
  | num (x : PyFloat)
  | int (n : ℤ)
  | str (s : String)
  | bool (b : Bool)
deriving DecidableEq

/-- Decidable equality for `Except`, needed to evaluate parse results. -/
instance {ε α : Type} [DecidableEq ε] [DecidableEq α] : DecidableEq (Except ε α) := fun x y =>
  match x, y with
  | .ok a, .ok b =>
    if h : a = b then isTrue (by rw [h]) else isFalse (by simp [h])
  | .error a, .error b =>
    if h : a = b then isTrue (by rw [h]) else isFalse (by simp [h])
  | .ok _, .error _ => isFalse (by simp)
  | .error _, .ok _ => isFalse (by simp)

/-- `dropWhile` never lengthens a list (used for termination measures). -/
theorem dropWhile_length_le {α : Type} (p : α → Bool) (l : List α) :
    (l.dropWhile p).length ≤ l.length := by
  induction l with
  | nil => simp
  | cons a l ih =>
    by_cases h : p a
    · rw [List.dropWhile_cons_of_pos h]
      exact le_trans ih (Nat.le_succ _)
    · rw [List.dropWhile_cons_of_neg (by simpa using h)]

end Structa

namespace Structa.TableAlignment

/-!  Embedding of `processors/table_alignment.py` (`TableAligner`). -/

/-- `currency_pattern = ^[\$£€¥]?\s*-?[\d,]+\.?\d*$`.  The character
classes of consecutive pieces are disjoint, so greedy matching is
deterministic. -/
def currencyMatch (cs : List Char) : Bool :=
  let cs1 :=
    match cs with
    | c :: rest => if c = '$' || c = '£' || c = '€' || c = '¥' then rest else c :: rest
    | [] => []
  let cs2 := cs1.dropWhile isPySpace
  let cs3 := match cs2 with
    | '-' :: rest => rest
    | l => l
  let isDc : Char → Bool := fun c => c.isDigit || c = ','
  let run := cs3.takeWhile isDc
  let rest := cs3.dropWhile isDc
  if run.isEmpty then false
  else
    let rest2 := match rest with
      | '.' :: r => r
      | l => l
    (rest2.dropWhile Char.isDigit).isEmpty

/-- `percentage_pattern = ^-?[\d\.]+\s*%$`. -/
def percentageMatch (cs : List Char) : Bool :=
  let cs1 := match cs with
    | '-' :: r => r
    | l => l
  let isDd : Char → Bool := fun c => c.isDigit || c = '.'
  let run := cs1.takeWhile isDd
  let rest := cs1.dropWhile isDd
  if run.isEmpty then false
  else
    match rest.dropWhile isPySpace with
    | ['%'] => true
    | _ => false

def isDateSep (c : Char) : Bool := c = '/' || c = '-'

/-- `^\d{1,2}S\d{1,2}S\d{2,4}$` where `S` is the class of slash and
hyphen.  Since digits cannot match the
separator, the greedy bounded repeats force each digit run to have
exactly the allowed length. -/
def dateMatch1 (cs : List Char) : Bool :=
  let r1 := cs.takeWhile Char.isDigit
  match cs.dropWhile Char.isDigit with
  | s1 :: rest1 =>
    if (r1.length = 1 || r1.length = 2) && isDateSep s1 then
      let r2 := rest1.takeWhile Char.isDigit
      match rest1.dropWhile Char.isDigit with
      | s2 :: rest2 =>
        if (r2.length = 1 || r2.length = 2) && isDateSep s2 then
          let r3 := rest2.takeWhile Char.isDigit
          decide (2 ≤ r3.length) && decide (r3.length ≤ 4) &&
            (rest2.dropWhile Char.isDigit).isEmpty
        else false
      | [] => false
    else false
  | [] => false

/-- `^\d{4}S\d{1,2}S\d{1,2}$` where `S` is the class of slash and hyphen. -/
def dateMatch2 (cs : List Char) : Bool :=
  let r1 := cs.takeWhile Char.isDigit
  match cs.dropWhile Char.isDigit with
  | s1 :: rest1 =>
    if r1.length = 4 && isDateSep s1 then
      let r2 := rest1.takeWhile Char.isDigit
      match rest1.dropWhile Char.isDigit with
      | s2 :: rest2 =>
        if (r2.length = 1 || r2.length = 2) && isDateSep s2 then
          let r3 := rest2.takeWhile Char.isDigit
          (r3.length = 1 || r3.length = 2) && (rest2.dropWhile Char.isDigit).isEmpty
        else false
      | [] => false
    else false
  | [] => false

def monthAbbrevs : List (List Char) :=
  ["jan".data, "feb".data, "mar".data, "apr".data, "may".data, "jun".data,
   "jul".data, "aug".data, "sep".data, "oct".data, "nov".data, "dec".data]

/-- `^(?:Jan|...|Dec)[a-z]*\s+\d{1,2},?\s+\d{4}$` with `re.IGNORECASE`
(so `[a-z]` matches either case). -/
def dateMatch3 (cs : List Char) : Bool :=
  match cs with
  | a :: b :: c :: rest =>
    if monthAbbrevs.contains [a.toLower, b.toLower, c.toLower] then
      let rest1 := rest.dropWhile Char.isAlpha
      let ws1 := rest1.takeWhile isPySpace
      let rest2 := rest1.dropWhile isPySpace
      if ws1.isEmpty then false
      else
        let d1 := rest2.takeWhile Char.isDigit
        let rest3 := rest2.dropWhile Char.isDigit
        if d1.length = 1 || d1.length = 2 then
          let rest4 := match rest3 with
            | ',' :: r => r
            | l => l
          let ws2 := rest4.takeWhile isPySpace
          let rest5 := rest4.dropWhile isPySpace
          if ws2.isEmpty then false
          else
            let d2 := rest5.takeWhile Char.isDigit
            d2.length = 4 && (rest5.dropWhile Char.isDigit).isEmpty
        else false
    else false
  | _ => false

/-- `_is_number`: remove commas and spaces, then `float(...)` succeeds. -/
def isNumber (cs : List Char) : Bool :=
  (pyFloatOf (cs.filter (fun c => c ≠ ',' && c ≠ ' '))).isSome

/-- Classification of one (already `str(...)`-converted) cell value inside
`_detect_type`: `none` for a blank (skipped) value, otherwise the branch
of the `if/elif` chain that fires. -/
def classifyValue (v : String) : Option String :=
  let s := pyStrip v.data
  if s.isEmpty then none
  else if currencyMatch s then some "currency"
  else if percentageMatch s then some "percentage"
  else if dateMatch1 s || dateMatch2 s || dateMatch3 s then some "date"
  else if isNumber s then some "number"
  else some "text"

/-- The insertion order of the `type_counts` dict in `_detect_type`;
`max(type_counts, key=type_counts.get)` iterates keys in this order and
keeps the first maximum. -/
def typeKeys : List String := ["currency", "percentage", "number", "date", "text"]

/-- Python `max(pairs, key=snd)`: first pair whose count is maximal. -/
def pyMaxKey : List (String × ℕ) → String
  | [] => "text"
  | p :: rest => (rest.foldl (fun best q => if q.2 > best.2 then q else best) p).1

/-- `_detect_type`. -/
def detectType (values : List String) : String :=
  let cls := values.filterMap classifyValue
  if cls.length = 0 then "text"
  else pyMaxKey (typeKeys.map fun t => (t, cls.count t))

/-- `_detect_column_types`. -/
def detectColumnTypes (rows : List (List String)) : List String :=
  match rows with
  | [] => []
  | r0 :: _ =>
    (List.range r0.length).map fun col =>
      detectType (rows.filterMap fun row => row.get? col)

/-- Widest row length of a matrix. -/
def maxColsOf (matrix : List (List String)) : ℕ :=
  (matrix.map List.length).foldl max 0

/-- `_normalize_columns`: pad every row with empty strings to the widest
row length. -/
def normalizeColumns (matrix : List (List String)) : List (List String) :=
  match matrix with
  | [] => []
  | _ => matrix.map fun row => row ++ List.replicate (maxColsOf matrix - row.length) ""

/-- `\w` word characters (ASCII): letters, digits, underscore. -/
def isWordChar (c : Char) : Bool := c.isAlphanum || c = '_'

/-- `re.sub(r"\s+", " ", s)`: collapse whitespace runs to single spaces. -/
def collapseWs : List Char → List Char
  | [] => []
  | c :: rest =>
    if isPySpace c then ' ' :: collapseWs (rest.dropWhile isPySpace)
    else c :: collapseWs rest
termination_by cs => cs.length
decreasing_by
  · simpa using Nat.lt_succ_of_le (dropWhile_length_le _ _)
  · simp

/-- Header cleaning of one name before de-duplication
(strip, collapse whitespace, delete non word/space/hyphen characters,
fall back to `Column N`). -/
def cleanHeaderName (h : String) (i : ℕ) : String :=
  let c := (collapseWs (pyStrip h.data)).filter
    (fun c => isWordChar c || isPySpace c || c = '-')
  if c.isEmpty then "Column " ++ toString (i + 1) else String.mk c

/-- Candidate names tried by the duplicate-header `while` loop:
`orig`, `orig_1`, `orig_2`, ... -/
def headerCandidate (orig : String) (k : ℕ) : String :=
  if k = 0 then orig else orig ++ "_" ++ toString k

/-- First candidate whose lower-casing is not in `seen`.  Searching
`seen.length + 1` candidates always succeeds (they are pairwise distinct),
so the fallback arm is unreachable. -/
def freshHeader (seen : List String) (orig : String) : String :=
  match (List.range (seen.length + 1)).find?
      (fun k => !(seen.contains (headerCandidate orig k).toLower)) with
  | some k => headerCandidate orig k
  | none => orig

/-- `_clean_headers` loop: `seen` holds the lower-cased accepted names. -/
def cleanHeadersAux : List String → ℕ → List String → List String
  | [], _, _ => []
  | h :: rest, i, seen =>
    let f := freshHeader seen (cleanHeaderName h i)
    f :: cleanHeadersAux rest (i + 1) (f.toLower :: seen)

/-- `_clean_headers`. -/
def cleanHeaders (headers : List String) : List String :=
  cleanHeadersAux headers 0 []

/-- `_parse_value`: parse one stripped cell string according to the
column type; `Except.error` models the `ValueError` caught by the caller. -/
def parseCellValue (value : String) (expectedType : String) : Except String PyValue :=
  if value.isEmpty then .ok .none
  else if expectedType = "currency" then
    let clean := value.data.filter fun c => c.isDigit || c = '.' || c = '-'
    if clean.isEmpty then .ok (.num (.fin 0))
    else
      match pyFloatOf clean with
      | some x => .ok (.num x)
      | none => .error ("could not convert string to float: " ++ String.mk clean)
  else if expectedType = "percentage" then
    let clean := pyStrip (value.data.filter fun c => c ≠ '%')
    if clean.isEmpty then .ok (.num (.fin 0))
    else
      match pyFloatOf clean with
      | some x => .ok (.num x.div100)
      | none => .error ("could not convert string to float: " ++ String.mk clean)
  else if expectedType = "number" then
    let clean := pyStrip (value.data.filter fun c => c ≠ ',')
    if clean.contains '.' then
      match pyFloatOf clean with
      | some x => .ok (.num x)
      | none => .error ("could not convert string to float: " ++ String.mk clean)
    else
      match pyIntOf clean with
      | some n => .ok (.int n)
      | none => .error ("invalid literal for int with base 10: " ++ String.mk clean)
  else .ok (.str value)

/-- One entry of `validation_errors`. -/
structure ValidationError where
  row : ℕ
  col : ℕ
  value : String
  expected_type : String
  error : String
deriving DecidableEq

/-- Column type looked up with the out-of-range default of
`_parse_and_validate`. -/
def colTypeAt (columnTypes : List String) (c : ℕ) : String :=
  columnTypes.getD c "text"

/-- Processing of a single cell by `_parse_and_validate`: the value kept
in the parsed row, and the validation error recorded (if any). -/
def cellEntry (rowIdx ci : ℕ) (columnTypes : List String) (cell : String) :
    PyValue × Option ValidationError :=
  let sv := String.mk (pyStrip cell.data)
  let ct := colTypeAt columnTypes ci
  match parseCellValue sv ct with
  | .ok v => (v, Option.none)
  | .error e => (PyValue.str sv, some ⟨rowIdx, ci, sv, ct, e⟩)

/-- Inner loop of `_parse_and_validate` over the cells of one row,
carrying the enumeration index. -/
def parseCells (rowIdx : ℕ) (columnTypes : List String) :
    ℕ → List String → List (PyValue × Option ValidationError)
  | _, [] => []
  | ci, cell :: rest =>
    cellEntry rowIdx ci columnTypes cell :: parseCells rowIdx columnTypes (ci + 1) rest

/-- One row of `_parse_and_validate`: parsed values and the errors it adds. -/
def parseRow (rowIdx : ℕ) (columnTypes : List String) (row : List String) :
    List PyValue × List ValidationError :=
  let cells := parseCells rowIdx columnTypes 0 row
  (cells.map Prod.fst, cells.filterMap Prod.snd)

/-- Outer loop of `_parse_and_validate`, carrying the row index. -/
def parseRowsFrom (columnTypes : List String) :
    ℕ → List (List String) → List (List PyValue) × List ValidationError
  | _, [] => ([], [])
  | ri, row :: rest =>
    let pr := parseRow ri columnTypes row
    let prest := parseRowsFrom columnTypes (ri + 1) rest
    (pr.1 :: prest.1, pr.2 ++ prest.2)

/-- `_parse_and_validate`. -/
def parseAndValidate (rows : List (List String)) (columnTypes : List String) :
    List (List PyValue) × List ValidationError :=
  parseRowsFrom columnTypes 0 rows

/-- Result of `align` (`AlignedTable`). -/
structure AlignedTable where
  headers : List String
  rows : List (List PyValue)
  column_types : List String
  validation_errors : List ValidationError
  normalized : Bool
deriving DecidableEq

/-- Data rows fed to type detection and parsing by `align`
(the normalized matrix, minus row 0 when it is the header). -/
def dataRowsOf (matrix : List (List String)) (hasHeader : Bool) : List (List String) :=
  let m := normalizeColumns matrix
  if hasHeader then m.tail else m

/-- Raw header names chosen by `align` before cleaning. -/
def rawHeadersOf (matrix : List (List String)) (hasHeader : Bool) : List String :=
  let m := normalizeColumns matrix
  if hasHeader then (m.headD []).map fun c => String.mk (pyStrip c.data)
  else (List.range (m.headD []).length).map fun i => "Column " ++ toString (i + 1)

/-- `align` (cells are modelled as the strings `str(cell)` yields). -/
def align (matrix : List (List String)) (hasHeader : Bool) : AlignedTable :=
  if matrix.isEmpty then ⟨[], [], [], [], true⟩
  else
    let dataRows := dataRowsOf matrix hasHeader
    let headers := cleanHeaders (rawHeadersOf matrix hasHeader)
    let columnTypes := detectColumnTypes dataRows
    let pv := parseAndValidate dataRows columnTypes
    ⟨headers, pv.1, columnTypes, pv.2, true⟩

end Structa.TableAlignment

namespace Structa.TableAlignment

/-!  Properties of the table aligner. -/

/-- Values of one column as gathered by `_detect_column_types`. -/
def columnValues (rows : List (List String)) (col : ℕ) : List String :=
  rows.filterMap fun row => row.get? col

/-- How many cells of a value list `_detect_type` classifies as `t`. -/
def classCount (values : List String) (t : String) : ℕ :=
  (values.filterMap classifyValue).count t

theorem detectColumnTypes_get (r0 : List String) (rest : List (List String)) (col : ℕ)
    (hcol : col < r0.length) :
    (detectColumnTypes (r0 :: rest)).get? col =
      some (detectType (columnValues (r0 :: rest) col)) := by
  simp [detectColumnTypes, columnValues, List.get?_map, List.get?_range, hcol]

theorem detectType_eq (values : List String)
    (hne : values.filterMap classifyValue ≠ []) :
    detectType values =
      pyMaxKey (typeKeys.map fun t => (t, (values.filterMap classifyValue).count t)) := by
  have hlen : ¬((values.filterMap classifyValue).length = 0) := by
    simpa [List.length_eq_zero] using hne
  simp only [detectType]
  rw [if_neg hlen]

set_option maxHeartbeats 1000000 in
/-- `_detect_type` returns a plurality class: its count is maximal, and on
ties it is the earliest key in the `type_counts` insertion order
`currency, percentage, number, date, text`. -/
theorem detectType_spec (values : List String)
    (hne : values.filterMap classifyValue ≠ []) :
    detectType values ∈ typeKeys ∧
    (∀ u ∈ typeKeys, classCount values u ≤ classCount values (detectType values)) ∧
    (∀ u ∈ typeKeys,
      classCount values u = classCount values (detectType values) →
      typeKeys.indexOf (detectType values) ≤ typeKeys.indexOf u) := by
  rw [detectType_eq values hne]
  simp only [typeKeys, List.map_cons, List.map_nil, pyMaxKey,
    List.foldl_cons, List.foldl_nil, classCount]
  refine ⟨?_, ?_, ?_⟩
  · split_ifs <;> · dsimp only ; decide
  · intro u hu
    fin_cases hu <;> split_ifs <;> · dsimp only at * ; omega
  · intro u hu
    fin_cases hu <;> split_ifs <;>
      · intro h
        dsimp only at *
        first
        | decide
        | exfalso ; omega

/-- C1 (amended): per-column type inference is the plurality vote among
the classifications of the column's non-empty cells, with ties broken by
the priority order currency > percentage > number > date > text. -/
theorem column_type_plurality (r0 : List String) (rest : List (List String)) (col : ℕ)
    (hcol : col < r0.length)
    (hne : (columnValues (r0 :: rest) col).filterMap classifyValue ≠ []) :
    ∃ t, (detectColumnTypes (r0 :: rest)).get? col = some t ∧ t ∈ typeKeys ∧
      (∀ u ∈ typeKeys,
        classCount (columnValues (r0 :: rest) col) u ≤
          classCount (columnValues (r0 :: rest) col) t) ∧
      (∀ u ∈ typeKeys,
        classCount (columnValues (r0 :: rest) col) u =
          classCount (columnValues (r0 :: rest) col) t →
        typeKeys.indexOf t ≤ typeKeys.indexOf u) := by
  obtain ⟨h1, h2, h3⟩ := detectType_spec (columnValues (r0 :: rest) col) hne
  exact ⟨_, detectColumnTypes_get r0 rest col hcol, h1, h2, h3⟩

/-- C1 (counterexample): a column with one date-classified and one
number-classified cell (a tie) is typed `number`, not `date`: the
tie-break order of the code is the `type_counts` dict insertion order,
in which `number` precedes `date`. -/
theorem column_type_tie_counterexample :
    detectColumnTypes [["1/1/2020"], [".5"]] = ["number"] ∧
    classCount (columnValues [["1/1/2020"], [".5"]] 0) "date" = 1 ∧
    classCount (columnValues [["1/1/2020"], [".5"]] 0) "number" = 1 ∧
    "number" ≠ "date" := by decide

theorem column_type_plurality_witness :
    (detectColumnTypes [["1/1/2020"], [".5"]]).get? 0 = some "number" ∧
    classCount (columnValues [["1/1/2020"], [".5"]] 0) "date" ≤
      classCount (columnValues [["1/1/2020"], [".5"]] 0) "number" := by
  obtain ⟨t, h1, _, hmax, _⟩ :=
    column_type_plurality ["1/1/2020"] [[".5"]] 0 (by decide) (by decide)
  have ht : t = "number" := by
    have h2 : (detectColumnTypes [["1/1/2020"], [".5"]]).get? 0 = some "number" := by decide
    rw [h1] at h2
    simpa using h2
  subst ht
  exact ⟨h1, hmax "date" (by decide)⟩

theorem init_le_foldl_max (l : List ℕ) : ∀ init : ℕ, init ≤ l.foldl max init := by
  induction l with
  | nil => intro init; simp
  | cons a l ih =>
    intro init
    exact le_trans (Nat.le_max_left init a) (ih (max init a))

theorem mem_le_foldl_max (l : List ℕ) (a : ℕ) (h : a ∈ l) :
    ∀ init : ℕ, a ≤ l.foldl max init := by
  induction l with
  | nil => cases h
  | cons b l ih =>
    intro init
    rw [List.foldl_cons]
    rcases List.mem_cons.mp h with rfl | hmem
    · exact le_trans (Nat.le_max_right init a) (init_le_foldl_max l (max init a))
    · exact ih hmem (max init b)

theorem row_length_le_maxCols (matrix : List (List String)) (row : List String)
    (h : row ∈ matrix) : row.length ≤ maxColsOf matrix :=
  mem_le_foldl_max _ _ (List.mem_map_of_mem List.length h) 0

/-- Every row of the normalized matrix has exactly the widest row length. -/
theorem normalizeColumns_length (matrix : List (List String)) (row : List String)
    (h : row ∈ normalizeColumns matrix) : row.length = maxColsOf matrix := by
  cases matrix with
  | nil => simp [normalizeColumns] at h
  | cons r0 rest =>
    simp only [normalizeColumns, List.mem_map] at h
    obtain ⟨r, hr, rfl⟩ := h
    have hle := row_length_le_maxCols (r0 :: rest) r hr
    simp [Nat.add_sub_cancel' hle]

theorem cleanHeadersAux_length (hs : List String) :
    ∀ (i : ℕ) (seen : List String), (cleanHeadersAux hs i seen).length = hs.length := by
  induction hs with
  | nil => intro i seen; rfl
  | cons h rest ih => intro i seen; simp [cleanHeadersAux, ih]

theorem cleanHeaders_length (hs : List String) : (cleanHeaders hs).length = hs.length :=
  cleanHeadersAux_length hs 0 []

theorem parseCells_length (ri : ℕ) (ts : List String) :
    ∀ (ci : ℕ) (row : List String), (parseCells ri ts ci row).length = row.length := by
  intro ci row
  induction row generalizing ci with
  | nil => rfl
  | cons c rest ih => simp [parseCells, ih]

theorem parseRow_length (ri : ℕ) (ts : List String) (row : List String) :
    (parseRow ri ts row).1.length = row.length := by
  simp [parseRow, parseCells_length]

theorem parseRowsFrom_mem (ts : List String) :
    ∀ (rows : List (List String)) (ri : ℕ) (p : List PyValue),
      p ∈ (parseRowsFrom ts ri rows).1 → ∃ r ∈ rows, p.length = r.length := by
  intro rows
  induction rows with
  | nil => intro ri p hp; simp [parseRowsFrom] at hp
  | cons row rest ih =>
    intro ri p hp
    simp only [parseRowsFrom, List.mem_cons] at hp
    rcases hp with rfl | hp
    · exact ⟨row, List.mem_cons_self _ _, parseRow_length ri ts row⟩
    · obtain ⟨r, hr, hlen⟩ := ih (ri + 1) p hp
      exact ⟨r, List.mem_cons_of_mem _ hr, hlen⟩

theorem dataRowsOf_mem (matrix : List (List String)) (hasHeader : Bool) (row : List String)
    (h : row ∈ dataRowsOf matrix hasHeader) : row ∈ normalizeColumns matrix := by
  simp only [dataRowsOf] at h
  split at h
  · exact List.mem_of_mem_tail h
  · exact h

theorem rawHeadersOf_length (matrix : List (List String)) (hasHeader : Bool)
    (hne : matrix ≠ []) : (rawHeadersOf matrix hasHeader).length = maxColsOf matrix := by
  have hmem : (normalizeColumns matrix).headD [] ∈ normalizeColumns matrix := by
    cases matrix with
    | nil => exact absurd rfl hne
    | cons r0 rest => simp [normalizeColumns]
  have hlen := normalizeColumns_length matrix _ hmem
  simp only [rawHeadersOf]
  split <;> simp only [List.headD_eq_head?_getD] at hlen ⊢ <;> simp [hlen]

theorem align_eq (matrix : List (List String)) (hasHeader : Bool) (hne : matrix ≠ []) :
    align matrix hasHeader =
      ⟨cleanHeaders (rawHeadersOf matrix hasHeader),
       (parseAndValidate (dataRowsOf matrix hasHeader)
         (detectColumnTypes (dataRowsOf matrix hasHeader))).1,
       detectColumnTypes (dataRowsOf matrix hasHeader),
       (parseAndValidate (dataRowsOf matrix hasHeader)
         (detectColumnTypes (dataRowsOf matrix hasHeader))).2,
       true⟩ := by
  simp only [align]
  rw [if_neg (by simpa [List.isEmpty_iff] using hne)]

/-- C7: normalization pads all rows to the widest row length, and every
row of the aligned table has exactly as many columns as there are
headers. -/
theorem align_rectangular (matrix : List (List String)) (hasHeader : Bool)
    (hne : matrix ≠ []) :
    (∀ row ∈ normalizeColumns matrix, row.length = maxColsOf matrix) ∧
    (∀ row ∈ (align matrix hasHeader).rows,
      row.length = (align matrix hasHeader).headers.length) := by
  refine ⟨fun row h => normalizeColumns_length matrix row h, fun row h => ?_⟩
  rw [align_eq matrix hasHeader hne] at h ⊢
  obtain ⟨r, hr, hlen⟩ := parseRowsFrom_mem _ _ _ _ h
  rw [hlen, cleanHeaders_length, rawHeadersOf_length matrix hasHeader hne]
  exact normalizeColumns_length matrix r (dataRowsOf_mem matrix hasHeader r hr)

/-- Example matrix with row lengths 3, 5 and 4. -/
def rowLengthsExample : List (List String) :=
  [["a", "b", "c"], ["d", "e", "f", "g", "h"], ["i", "j", "k", "l"]]

theorem align_rectangular_witness :
    rowLengthsExample ≠ [] ∧
    (["a", "b", "c", "", ""] : List String).length = maxColsOf rowLengthsExample ∧
    ((align rowLengthsExample true).rows.headD []).length =
      (align rowLengthsExample true).headers.length :=
  ⟨by decide,
   (align_rectangular rowLengthsExample true (by decide)).1 ["a", "b", "c", "", ""] (by decide),
   (align_rectangular rowLengthsExample true (by decide)).2
     ((align rowLengthsExample true).rows.headD []) (by decide)⟩

theorem cellEntry_fields (ri ci : ℕ) (ts : List String) (cell : String) (e : ValidationError)
    (h : (cellEntry ri ci ts cell).2 = some e) : e.row = ri ∧ e.col = ci := by
  simp only [cellEntry] at h
  split at h
  · simp at h
  · simp only [Option.some.injEq] at h
    subst h
    exact ⟨rfl, rfl⟩

theorem parseRow_fst (ri : ℕ) (ts : List String) (row : List String) :
    (parseRow ri ts row).1 = (parseCells ri ts 0 row).map Prod.fst := rfl

theorem parseRow_snd (ri : ℕ) (ts : List String) (row : List String) :
    (parseRow ri ts row).2 = (parseCells ri ts 0 row).filterMap Prod.snd := rfl

theorem parseCells_get (ri : ℕ) (ts : List String) :
    ∀ (row : List String) (ci c : ℕ) (cell : String), row.get? c = some cell →
      (parseCells ri ts ci row).get? c = some (cellEntry ri (ci + c) ts cell) := by
  intro row
  induction row with
  | nil => intro ci c cell h; simp at h
  | cons x rest ih =>
    intro ci c cell h
    cases c with
    | zero =>
      simp only [List.get?_cons_zero, Option.some.injEq] at h
      rw [← h]
      simp [parseCells]
    | succ c =>
      simp only [List.get?_cons_succ] at h
      have h2 := ih (ci + 1) c cell h
      have hidx : ci + 1 + c = ci + (c + 1) := by omega
      rw [hidx] at h2
      simpa only [parseCells, List.get?_cons_succ] using h2

theorem parseCells_errors_bound (ri : ℕ) (ts : List String) :
    ∀ (row : List String) (ci : ℕ) (e : ValidationError),
      e ∈ (parseCells ri ts ci row).filterMap Prod.snd → e.row = ri ∧ ci ≤ e.col := by
  intro row
  induction row with
  | nil => intro ci e he; simp [parseCells] at he
  | cons x rest ih =>
    intro ci e he
    simp only [parseCells, List.filterMap_cons] at he
    rcases hx : (cellEntry ri ci ts x).2 with _ | err
    · rw [hx] at he
      obtain ⟨h1, h2⟩ := ih (ci + 1) e he
      exact ⟨h1, le_trans (Nat.le_succ ci) h2⟩
    · rw [hx] at he
      rcases List.mem_cons.mp he with rfl | he2
      · obtain ⟨h1, h2⟩ := cellEntry_fields ri ci ts x e hx
        exact ⟨h1, le_of_eq h2.symm⟩
      · obtain ⟨h1, h2⟩ := ih (ci + 1) e he2
        exact ⟨h1, le_trans (Nat.le_succ ci) h2⟩

theorem parseCells_filter (ri : ℕ) (ts : List String) :
    ∀ (row : List String) (ci c : ℕ) (cell : String), row.get? c = some cell →
      ((parseCells ri ts ci row).filterMap Prod.snd).filter (fun e => e.col == ci + c) =
        (cellEntry ri (ci + c) ts cell).2.toList := by
  intro row
  induction row with
  | nil => intro ci c cell h; simp at h
  | cons x rest ih =>
    intro ci c cell h
    have hrest : ∀ a : ℕ, a < ci + 1 →
        ((parseCells ri ts (ci + 1) rest).filterMap Prod.snd).filter
          (fun e => e.col == a) = [] := by
      intro a ha
      rw [List.filter_eq_nil]
      intro e he
      have := (parseCells_errors_bound ri ts rest (ci + 1) e he).2
      simp only [beq_iff_eq]
      omega
    cases c with
    | zero =>
      simp only [List.get?_cons_zero, Option.some.injEq] at h
      rw [← h]
      simp only [parseCells, List.filterMap_cons, Nat.add_zero]
      rcases hx : (cellEntry ri ci ts x).2 with _ | err
      · simpa using hrest ci (Nat.lt_succ_self ci)
      · have hcol := (cellEntry_fields ri ci ts x err hx).2
        rw [List.filter_cons]
        have htrue : (err.col == ci) = true := by simp [hcol]
        rw [htrue]
        simp [hrest ci (Nat.lt_succ_self ci)]
    | succ c =>
      simp only [List.get?_cons_succ] at h
      have h2 := ih (ci + 1) c cell h
      have hidx : ci + 1 + c = ci + (c + 1) := by omega
      rw [hidx] at h2
      simp only [parseCells, List.filterMap_cons]
      rcases hx : (cellEntry ri ci ts x).2 with _ | err
      · exact h2
      · have hcol := (cellEntry_fields ri ci ts x err hx).2
        have hne2 : (err.col == ci + (c + 1)) = false := by
          simp only [beq_eq_false_iff_ne, ne_eq]
          omega
        rw [List.filter_cons, hne2]
        simpa using h2

theorem parseRow_errors_row (ri : ℕ) (ts : List String) (row : List String) :
    ∀ e ∈ (parseRow ri ts row).2, e.row = ri := by
  intro e he
  exact (parseCells_errors_bound ri ts row 0 e he).1

theorem parseRowsFrom_length (ts : List String) :
    ∀ (rows : List (List String)) (ri : ℕ), (parseRowsFrom ts ri rows).1.length = rows.length := by
  intro rows
  induction rows with
  | nil => intro ri; rfl
  | cons row rest ih => intro ri; simp [parseRowsFrom, ih]

theorem parseRowsFrom_get (ts : List String) :
    ∀ (rows : List (List String)) (ri r : ℕ) (row : List String), rows.get? r = some row →
      (parseRowsFrom ts ri rows).1.get? r = some (parseRow (ri + r) ts row).1 := by
  intro rows
  induction rows with
  | nil => intro ri r row h; simp at h
  | cons row0 rest ih =>
    intro ri r row h
    cases r with
    | zero =>
      simp only [List.get?_cons_zero, Option.some.injEq] at h
      rw [← h]
      simp [parseRowsFrom]
    | succ r =>
      simp only [List.get?_cons_succ] at h
      have h2 := ih (ri + 1) r row h
      have hidx : ri + 1 + r = ri + (r + 1) := by omega
      rw [hidx] at h2
      simpa only [parseRowsFrom, List.get?_cons_succ] using h2

theorem parseRowsFrom_errors_bound (ts : List String) :
    ∀ (rows : List (List String)) (ri : ℕ) (e : ValidationError),
      e ∈ (parseRowsFrom ts ri rows).2 → ri ≤ e.row := by
  intro rows
  induction rows with
  | nil => intro ri e he; simp [parseRowsFrom] at he
  | cons row rest ih =>
    intro ri e he
    rcases List.mem_append.mp he with h1 | h2
    · exact le_of_eq (parseRow_errors_row ri ts row e h1).symm
    · exact le_trans (Nat.le_succ ri) (ih (ri + 1) e h2)

theorem parseRowsFrom_filter (ts : List String) :
    ∀ (rows : List (List String)) (ri r : ℕ) (row : List String) (c : ℕ),
      rows.get? r = some row →
      (parseRowsFrom ts ri rows).2.filter (fun e => e.row == ri + r && e.col == c) =
        (parseRow (ri + r) ts row).2.filter (fun e => e.col == c) := by
  intro rows
  induction rows with
  | nil => intro ri r row c h; simp at h
  | cons row0 rest ih =>
    intro ri r row c h
    have hrest : ∀ a : ℕ, a < ri + 1 →
        (parseRowsFrom ts (ri + 1) rest).2.filter
          (fun e => e.row == a && e.col == c) = [] := by
      intro a ha
      rw [List.filter_eq_nil]
      intro e he
      have := parseRowsFrom_errors_bound ts rest (ri + 1) e he
      simp only [Bool.and_eq_true, beq_iff_eq, not_and]
      omega
    cases r with
    | zero =>
      simp only [List.get?_cons_zero, Option.some.injEq] at h
      rw [← h]
      simp only [parseRowsFrom, List.filter_append, Nat.add_zero]
      rw [hrest ri (Nat.lt_succ_self ri), List.append_nil]
      refine List.filter_congr ?_
      intro e he
      rw [parseRow_errors_row ri ts row0 e he]
      simp
    | succ r =>
      simp only [List.get?_cons_succ] at h
      have hfirst : (parseRow ri ts row0).2.filter
          (fun e => e.row == ri + (r + 1) && e.col == c) = [] := by
        rw [List.filter_eq_nil]
        intro e he
        rw [parseRow_errors_row ri ts row0 e he]
        simp only [Bool.and_eq_true, beq_iff_eq, not_and]
        omega
      have h2 := ih (ri + 1) r row c h
      have hidx : ri + 1 + r = ri + (r + 1) := by omega
      rw [hidx] at h2
      simp only [parseRowsFrom, List.filter_append, hfirst, List.nil_append]
      exact h2

/-- C3: `align` is a total function; a cell whose typed parse succeeds is
stored parsed with no validation error at its coordinates, and a cell
whose typed parse fails is kept as its original (stripped) string and
contributes exactly one validation error carrying the row index, column
index, raw value, expected type and message. -/
theorem align_validation_advisory (matrix : List (List String)) (hasHeader : Bool)
    (hne : matrix ≠ []) (r c : ℕ) (row : List String) (cell : String)
    (hrow : (dataRowsOf matrix hasHeader).get? r = some row)
    (hcell : row.get? c = some cell) :
    (align matrix hasHeader).rows.length = (dataRowsOf matrix hasHeader).length ∧
    ∃ prow, (align matrix hasHeader).rows.get? r = some prow ∧
      prow.length = row.length ∧
      (∀ v, parseCellValue (String.mk (pyStrip cell.data))
          (colTypeAt (detectColumnTypes (dataRowsOf matrix hasHeader)) c) = .ok v →
        prow.get? c = some v ∧
        (align matrix hasHeader).validation_errors.filter
          (fun e => e.row == r && e.col == c) = []) ∧
      (∀ msg, parseCellValue (String.mk (pyStrip cell.data))
          (colTypeAt (detectColumnTypes (dataRowsOf matrix hasHeader)) c) = .error msg →
        prow.get? c = some (.str (String.mk (pyStrip cell.data))) ∧
        (align matrix hasHeader).validation_errors.filter
          (fun e => e.row == r && e.col == c) =
          [⟨r, c, String.mk (pyStrip cell.data),
            colTypeAt (detectColumnTypes (dataRowsOf matrix hasHeader)) c, msg⟩]) := by
  rw [align_eq matrix hasHeader hne]
  set dataRows := dataRowsOf matrix hasHeader with hdr
  set ts := detectColumnTypes dataRows with hts
  dsimp only
  simp only [parseAndValidate]
  have hcg := parseCells_get r ts row 0 c cell hcell
  rw [Nat.zero_add] at hcg
  have hget : (parseRow r ts row).1.get? c = some (cellEntry r c ts cell).1 := by
    rw [parseRow_fst, List.get?_map, hcg]
    rfl
  have h1 := parseRowsFrom_filter ts dataRows 0 r row c hrow
  rw [Nat.zero_add] at h1
  have h2 := parseCells_filter r ts row 0 c cell hcell
  rw [Nat.zero_add] at h2
  rw [parseRow_snd] at h1
  have hfil : (parseRowsFrom ts 0 dataRows).2.filter (fun e => e.row == r && e.col == c) =
      (cellEntry r c ts cell).2.toList := by rw [h1, h2]
  have hpg := parseRowsFrom_get ts dataRows 0 r row hrow
  rw [Nat.zero_add] at hpg
  refine ⟨parseRowsFrom_length ts dataRows 0, (parseRow r ts row).1, hpg,
    parseRow_length r ts row, ?_, ?_⟩
  · intro v hv
    have hentry : cellEntry r c ts cell = (v, Option.none) := by
      simp only [cellEntry]
      rw [hv]
    exact ⟨by rw [hget, hentry], by rw [hfil, hentry]; rfl⟩
  · intro msg hmsg
    have hentry : cellEntry r c ts cell =
        (PyValue.str (String.mk (pyStrip cell.data)),
         some ⟨r, c, String.mk (pyStrip cell.data), colTypeAt ts c, msg⟩) := by
      simp only [cellEntry]
      rw [hmsg]
    exact ⟨by rw [hget, hentry], by rw [hfil, hentry]; rfl⟩

/-- A matrix whose single data column is typed `currency` while the cell
`"-"` fails the currency parse. -/
def cellErrorExample : List (List String) := [["h"], ["$1"], ["-"]]

theorem align_validation_advisory_witness :
    (align cellErrorExample true).rows.length = (dataRowsOf cellErrorExample true).length ∧
    (align cellErrorExample true).validation_errors.filter
        (fun e => e.row == 1 && e.col == 0) =
      [⟨1, 0, String.mk (pyStrip "-".data),
        colTypeAt (detectColumnTypes (dataRowsOf cellErrorExample true)) 0,
        "could not convert string to float: -"⟩] := by
  obtain ⟨hlen, prow, hget, hplen, hok, herr⟩ :=
    align_validation_advisory cellErrorExample true (by decide) 1 0 ["-"] "-"
      (by decide) (by decide)
  exact ⟨hlen, (herr "could not convert string to float: -" (by decide)).2⟩

/-- C4: the currency column of the spec parses exactly as claimed. -/
theorem currency_column_example :
    (align [["$1,200.00"], ["$45.50"], ["$0.00"]] false).column_types = ["currency"] ∧
    (align [["$1,200.00"], ["$45.50"], ["$0.00"]] false).rows =
      [[.num (.fin (mkRat 1200 1))], [.num (.fin (mkRat 91 2))], [.num (.fin (mkRat 0 1))]] ∧
    (align [["$1,200.00"], ["$45.50"], ["$0.00"]] false).validation_errors = [] := by
  decide

end Structa.TableAlignment

namespace Structa.Layout

/-!  Embedding of `_determine_reading_order` from `processors/layout.py`.
Only the bounding box of a `LayoutRegion` is consulted by the
reading-order computation (`type`, `confidence` and `order` never are),
so a region is modelled by its box `(x, y, w, h)`.  Python's `sorted` is
a stable sort by the given key; any two stable sorts with the same key
produce identical output, so it is modelled by a stable insertion sort. -/

structure Region where
  x : Int
  y : Int
  w : Int
  h : Int
deriving DecidableEq

/-- The y-overlap test of the row-grouping loop: `last` is the region
added to the current row most recently, `next` the candidate. -/
def yOverlapB (last next : Region) : Bool :=
  next.y < last.y + last.h && last.y < next.y + next.h

/-- Stable insertion into a sorted list (equal keys keep the new element
after existing ones never — the new element, coming from earlier in the
original list, goes first on ties, which is Python's stability). -/
def stableInsert (le : α → α → Bool) (a : α) : List α → List α
  | [] => [a]
  | b :: bs => if le a b then a :: b :: bs else b :: stableInsert le a bs

/-- Stable sort (equals Python `sorted` for a total preorder `le`). -/
def stableSort (le : α → α → Bool) : List α → List α
  | [] => []
  | a :: rest => stableInsert le a (stableSort le rest)

/-- Key of `sorted(indexed_regions, key=lambda x: x[1].bbox[1])`. -/
def yLe (a b : ℕ × Region) : Bool := a.2.y ≤ b.2.y

/-- Key of the within-row sort `key=lambda x: x[1].bbox[0]`. -/
def xLe (a b : ℕ × Region) : Bool := a.2.x ≤ b.2.x

/-- `enumerate(regions)` sorted by top y-coordinate. -/
def sortedByY (regions : List Region) : List (ℕ × Region) :=
  stableSort yLe regions.enum

/-- The row-accumulation loop: `current` is the row being built (in
order), `lastR` its most recently added element. -/
def groupRowsAux : List (ℕ × Region) → (ℕ × Region) → List (ℕ × Region) →
    List (List (ℕ × Region))
  | current, _, [] => [current]
  | current, lastR, a :: rest =>
    if yOverlapB lastR.2 a.2 then groupRowsAux (current ++ [a]) a rest
    else current :: groupRowsAux [a] a rest

/-- Group the y-sorted regions into rows. -/
def groupRows : List (ℕ × Region) → List (List (ℕ × Region))
  | [] => []
  | a :: rest => groupRowsAux [a] a rest

/-- `_determine_reading_order`. -/
def determineReadingOrder (regions : List Region) : List ℕ :=
  if regions.isEmpty then []
  else
    ((groupRows (sortedByY regions)).map
      (fun g => (stableSort xLe g).map Prod.fst)).flatten

/-- Index of the row (in the grouping) that contains region index `i`. -/
def findRowAux (i : ℕ) : ℕ → List (List (ℕ × Region)) → Option ℕ
  | _, [] => none
  | k, g :: rest =>
    if g.any (fun p => p.1 == i) then some k else findRowAux i (k + 1) rest

/-- The row the grouping step assigns to region index `i` (the formal
reading of the region lying on a given visual row). -/
def rowOf (regions : List Region) (i : ℕ) : Option ℕ :=
  findRowAux i 0 (groupRows (sortedByY regions))

theorem stableInsert_perm (le : α → α → Bool) (a : α) :
    ∀ l : List α, (stableInsert le a l).Perm (a :: l) := by
  intro l
  induction l with
  | nil => simp [stableInsert]
  | cons b bs ih =>
    simp only [stableInsert]
    split
    · exact List.Perm.refl _
    · exact (ih.cons b).trans (List.Perm.swap a b bs)

theorem stableSort_perm (le : α → α → Bool) :
    ∀ l : List α, (stableSort le l).Perm l := by
  intro l
  induction l with
  | nil => exact List.Perm.refl _
  | cons a rest ih =>
    exact (stableInsert_perm le a (stableSort le rest)).trans (ih.cons a)

theorem stableInsert_pairwise (le : α → α → Bool)
    (htot : ∀ a b, le a b = true ∨ le b a = true)
    (htrans : ∀ a b c, le a b = true → le b c = true → le a c = true)
    (a : α) : ∀ l : List α, l.Pairwise (fun x y => le x y = true) →
      (stableInsert le a l).Pairwise (fun x y => le x y = true) := by
  intro l
  induction l with
  | nil => intro _; simp [stableInsert]
  | cons b bs ih =>
    intro hp
    rw [List.pairwise_cons] at hp
    obtain ⟨hb, hbs⟩ := hp
    simp only [stableInsert]
    split
    · rename_i hab
      rw [List.pairwise_cons]
      refine ⟨?_, List.pairwise_cons.mpr ⟨hb, hbs⟩⟩
      intro x hx
      rcases List.mem_cons.mp hx with rfl | hx2
      · exact hab
      · exact htrans a b x hab (hb x hx2)
    · rename_i hab
      have hba : le b a = true := by
        rcases htot a b with h | h
        · exact absurd h hab
        · exact h
      rw [List.pairwise_cons]
      refine ⟨?_, ih hbs⟩
      intro x hx
      have := (stableInsert_perm le a bs).mem_iff.mp hx
      rcases List.mem_cons.mp this with rfl | hx2
      · exact hba
      · exact hb x hx2

theorem stableSort_pairwise (le : α → α → Bool)
    (htot : ∀ a b, le a b = true ∨ le b a = true)
    (htrans : ∀ a b c, le a b = true → le b c = true → le a c = true) :
    ∀ l : List α, (stableSort le l).Pairwise (fun x y => le x y = true) := by
  intro l
  induction l with
  | nil => simp [stableSort]
  | cons a rest ih => exact stableInsert_pairwise le htot htrans a _ ih

theorem yLe_total : ∀ a b : ℕ × Region, yLe a b = true ∨ yLe b a = true := by
  intro a b
  simp only [yLe, decide_eq_true_eq]
  omega

theorem yLe_trans : ∀ a b c : ℕ × Region,
    yLe a b = true → yLe b c = true → yLe a c = true := by
  intro a b c
  simp only [yLe, decide_eq_true_eq]
  omega

theorem groupRowsAux_join :
    ∀ (rest : List (ℕ × Region)) (current : List (ℕ × Region)) (lastR : ℕ × Region),
      (groupRowsAux current lastR rest).flatten = current ++ rest := by
  intro rest
  induction rest with
  | nil => intro current lastR; simp [groupRowsAux]
  | cons a rest ih =>
    intro current lastR
    simp only [groupRowsAux]
    split
    · rw [ih]
      simp
    · simp only [List.flatten_cons, ih]
      simp

theorem groupRows_join (l : List (ℕ × Region)) : (groupRows l).flatten = l := by
  cases l with
  | nil => rfl
  | cons a rest => simpa using groupRowsAux_join rest [a] a

theorem join_map_perm {α β : Type} {f g : List α → List β}
    (hfg : ∀ l, (f l).Perm (g l)) :
    ∀ L : List (List α), ((L.map f).flatten).Perm ((L.map g).flatten) := by
  intro L
  induction L with
  | nil => simp
  | cons l L ih =>
    simp only [List.map_cons, List.flatten_cons]
    exact (hfg l).append ih

theorem mem_enumFrom_get : ∀ (l : List α) (n k : ℕ) (x : α),
    (k, x) ∈ l.enumFrom n → n ≤ k ∧ l.get? (k - n) = some x := by
  intro l
  induction l with
  | nil => intro n k x h; simp [List.enumFrom] at h
  | cons a rest ih =>
    intro n k x h
    simp only [List.enumFrom, List.mem_cons, Prod.mk.injEq] at h
    rcases h with ⟨rfl, rfl⟩ | h2
    · simp
    · obtain ⟨h1, h2⟩ := ih (n + 1) k x h2
      refine ⟨by omega, ?_⟩
      have : k - n = (k - (n + 1)) + 1 := by omega
      rw [this, List.get?_cons_succ]
      exact h2

theorem mem_enum_get (l : List α) (k : ℕ) (x : α) (h : (k, x) ∈ l.enum) :
    l.get? k = some x := by
  have := mem_enumFrom_get l 0 k x h
  simpa using this.2

theorem get_mem_enumFrom : ∀ (l : List α) (n k : ℕ) (x : α),
    l.get? k = some x → (n + k, x) ∈ l.enumFrom n := by
  intro l
  induction l with
  | nil => intro n k x h; simp at h
  | cons a rest ih =>
    intro n k x h
    cases k with
    | zero =>
      simp only [List.get?_cons_zero, Option.some.injEq] at h
      rw [← h]
      simp [List.enumFrom]
    | succ k =>
      simp only [List.get?_cons_succ] at h
      have := ih (n + 1) k x h
      have hidx : n + (k + 1) = n + 1 + k := by omega
      rw [hidx]
      simp only [List.enumFrom, List.mem_cons]
      exact Or.inr this

theorem get_mem_enum (l : List α) (k : ℕ) (x : α) (h : l.get? k = some x) :
    (k, x) ∈ l.enum := by
  simpa using get_mem_enumFrom l 0 k x h

theorem findRowAux_some (i : ℕ) :
    ∀ (ls : List (List (ℕ × Region))) (k a : ℕ), findRowAux i k ls = some a →
      k ≤ a ∧ ∃ g, ls.get? (a - k) = some g ∧ ∃ p ∈ g, p.1 = i := by
  intro ls
  induction ls with
  | nil => intro k a h; simp [findRowAux] at h
  | cons g rest ih =>
    intro k a h
    simp only [findRowAux] at h
    split at h
    · rename_i hany
      simp only [Option.some.injEq] at h
      rw [← h]
      refine ⟨le_refl _, g, by simp, ?_⟩
      simpa [List.any_eq_true, beq_iff_eq] using hany
    · obtain ⟨h1, g2, h2, h3⟩ := ih (k + 1) a h
      refine ⟨by omega, g2, ?_, h3⟩
      have hidx : a - k = (a - (k + 1)) + 1 := by omega
      rw [hidx, List.get?_cons_succ]
      exact h2

theorem findRowAux_isSome (i : ℕ) :
    ∀ (ls : List (List (ℕ × Region))) (k : ℕ) (g : List (ℕ × Region)) (p : ℕ × Region),
      g ∈ ls → p ∈ g → p.1 = i → ∃ a, findRowAux i k ls = some a := by
  intro ls
  induction ls with
  | nil => intro k g p hg; cases hg
  | cons g0 rest ih =>
    intro k g p hg hp hpi
    simp only [findRowAux]
    by_cases hany : g0.any (fun q => q.1 == i) = true
    · exact ⟨k, by rw [if_pos hany]⟩
    · rcases List.mem_cons.mp hg with rfl | hg2
      · exact absurd (List.any_eq_true.mpr ⟨p, hp, by simp [hpi]⟩) hany
      · obtain ⟨a, ha⟩ := ih (k + 1) g p hg2 hp hpi
        exact ⟨a, by rw [if_neg hany]; exact ha⟩

theorem pairwise_join_chunks {α : Type} {R : α → α → Prop} :
    ∀ (L : List (List α)) (a b : ℕ) (ga gb : List α) (x y : α),
      L.flatten.Pairwise R → a < b → L.get? a = some ga → L.get? b = some gb →
      x ∈ ga → y ∈ gb → R x y := by
  intro L
  induction L with
  | nil => intro a b ga gb x y hp hab ha hb hx hy; simp at ha
  | cons g rest ih =>
    intro a b ga gb x y hp hab ha hb hx hy
    rw [List.flatten_cons, List.pairwise_append] at hp
    obtain ⟨hg, hrest, hcross⟩ := hp
    cases a with
    | zero =>
      simp only [List.get?_cons_zero, Option.some.injEq] at ha
      cases b with
      | zero => omega
      | succ b =>
        simp only [List.get?_cons_succ] at hb
        refine hcross x (by rw [ha]; exact hx) y ?_
        rw [List.mem_flatten]
        exact ⟨gb, List.get?_mem hb, hy⟩
    | succ a =>
      cases b with
      | zero => omega
      | succ b =>
        simp only [List.get?_cons_succ] at ha hb
        exact ih a b ga gb x y hrest (by omega) ha hb hx hy

theorem determineReadingOrder_eq (regions : List Region) (hne : regions ≠ []) :
    determineReadingOrder regions =
      ((groupRows (sortedByY regions)).map
        (fun g => (stableSort xLe g).map Prod.fst)).flatten := by
  simp only [determineReadingOrder]
  rw [if_neg (by simpa [List.isEmpty_iff] using hne)]

theorem readingOrder_perm (regions : List Region) :
    (determineReadingOrder regions).Perm (List.range regions.length) := by
  by_cases hne : regions = []
  · rw [hne]; simp [determineReadingOrder]
  · rw [determineReadingOrder_eq regions hne]
    have h1 := join_map_perm (f := fun g => (stableSort xLe g).map Prod.fst)
      (g := fun g => g.map Prod.fst)
      (fun l => (stableSort_perm xLe l).map Prod.fst)
      (groupRows (sortedByY regions))
    have h2 : ((groupRows (sortedByY regions)).map (List.map Prod.fst)).flatten
        = (sortedByY regions).map Prod.fst := by
      rw [← List.map_flatten, groupRows_join]
    rw [h2] at h1
    have h3 : ((sortedByY regions).map Prod.fst).Perm (regions.enum.map Prod.fst) :=
      (stableSort_perm yLe regions.enum).map Prod.fst
    have h4 : regions.enum.map Prod.fst = List.range regions.length := by simp
    exact h1.trans (h3.trans (h4 ▸ List.Perm.refl _))

/-- C2: the reading order is a permutation of `0..N-1`, and of two
regions on distinct rows of the grouping, vertically non-overlapping,
the one with the smaller top y gets the smaller order index (the order
index of region `i` is the position of `i` in the reading-order list,
which `detect` then writes into `regions[i].order`). -/
theorem reading_order_spec (regions : List Region) :
    (determineReadingOrder regions).Perm (List.range regions.length) ∧
    ∀ i j ri rj, regions.get? i = some ri → regions.get? j = some rj →
      ri.y + ri.h ≤ rj.y → ri.y < rj.y →
      rowOf regions i ≠ rowOf regions j →
      ∀ p q, (determineReadingOrder regions).get? p = some i →
        (determineReadingOrder regions).get? q = some j → p < q := by
  refine ⟨readingOrder_perm regions, ?_⟩
  intro i j ri rj hri hrj hnov hylt hrow p q hp hq
  have hne : regions ≠ [] := by
    intro h
    rw [h] at hri
    simp at hri
  set rows := groupRows (sortedByY regions) with hrows
  have hsperm : (sortedByY regions).Perm regions.enum := stableSort_perm yLe regions.enum
  have entry_region : ∀ (g : List (ℕ × Region)) (k : ℕ), rows.get? k = some g →
      ∀ pp ∈ g, regions.get? pp.1 = some pp.2 := by
    intro g k hk pp hpp
    have hj : pp ∈ rows.flatten := List.mem_flatten.mpr ⟨g, List.get?_mem hk, hpp⟩
    rw [hrows, groupRows_join] at hj
    exact mem_enum_get regions pp.1 pp.2 (hsperm.mem_iff.mp hj)
  -- locate the rows of i and j
  have hisort : (i, ri) ∈ sortedByY regions :=
    hsperm.mem_iff.mpr (get_mem_enum regions i ri hri)
  have hjsort : (j, rj) ∈ sortedByY regions :=
    hsperm.mem_iff.mpr (get_mem_enum regions j rj hrj)
  have hijoin : (i, ri) ∈ rows.flatten := by rw [hrows, groupRows_join]; exact hisort
  have hjjoin : (j, rj) ∈ rows.flatten := by rw [hrows, groupRows_join]; exact hjsort
  obtain ⟨gi0, hgi0_mem, hgi0⟩ := List.mem_flatten.mp hijoin
  obtain ⟨gj0, hgj0_mem, hgj0⟩ := List.mem_flatten.mp hjjoin
  obtain ⟨a, ha⟩ := findRowAux_isSome i rows 0 gi0 (i, ri) hgi0_mem hgi0 rfl
  obtain ⟨b, hb⟩ := findRowAux_isSome j rows 0 gj0 (j, rj) hgj0_mem hgj0 rfl
  obtain ⟨-, ga, hga, pa, hpa_mem, hpa_fst⟩ := findRowAux_some i rows 0 a ha
  obtain ⟨-, gb, hgb, pb, hpb_mem, hpb_fst⟩ := findRowAux_some j rows 0 b hb
  rw [Nat.sub_zero] at hga hgb
  have hpa2 : pa.2 = ri := by
    have h := entry_region ga a hga pa hpa_mem
    rw [hpa_fst, hri] at h
    simpa using h.symm
  have hpb2 : pb.2 = rj := by
    have h := entry_region gb b hgb pb hpb_mem
    rw [hpb_fst, hrj] at h
    simpa using h.symm
  have hia : (i, ri) ∈ ga := by
    have : pa = (i, ri) := Prod.ext hpa_fst hpa2
    rw [← this]
    exact hpa_mem
  have hjb : (j, rj) ∈ gb := by
    have : pb = (j, rj) := Prod.ext hpb_fst hpb2
    rw [← this]
    exact hpb_mem
  have hrowi : rowOf regions i = some a := by rw [rowOf, ← hrows]; exact ha
  have hrowj : rowOf regions j = some b := by rw [rowOf, ← hrows]; exact hb
  have hab_ne : a ≠ b := by
    intro h
    apply hrow
    rw [hrowi, hrowj, h]
  -- a < b, else sortedness contradicts ri.y < rj.y
  have hab : a < b := by
    rcases Nat.lt_or_ge a b with h | h
    · exact h
    · exfalso
      have hba : b < a := lt_of_le_of_ne h (Ne.symm hab_ne)
      have hpair : rows.flatten.Pairwise (fun x y => yLe x y = true) := by
        rw [hrows, groupRows_join]
        exact stableSort_pairwise yLe yLe_total yLe_trans regions.enum
      have := pairwise_join_chunks rows b a gb ga (j, rj) (i, ri)
        hpair hba hgb hga hjb hia
      simp only [yLe, decide_eq_true_eq] at this
      omega
  -- final positions in the concatenated sorted rows
  set chunks := rows.map (fun g => (stableSort xLe g).map Prod.fst) with hchunks
  have hrd : determineReadingOrder regions = chunks.flatten := by
    rw [determineReadingOrder_eq regions hne, hchunks, hrows]
  have hfa : chunks.get? a = some ((stableSort xLe ga).map Prod.fst) := by
    rw [hchunks, List.get?_map, hga]
    rfl
  have hfb : chunks.get? b = some ((stableSort xLe gb).map Prod.fst) := by
    rw [hchunks, List.get?_map, hgb]
    rfl
  have hia2 : i ∈ (stableSort xLe ga).map Prod.fst := by
    have : (i, ri) ∈ stableSort xLe ga := (stableSort_perm xLe ga).mem_iff.mpr hia
    exact List.mem_map_of_mem Prod.fst this
  have hjb2 : j ∈ (stableSort xLe gb).map Prod.fst := by
    have : (j, rj) ∈ stableSort xLe gb := (stableSort_perm xLe gb).mem_iff.mpr hjb
    exact List.mem_map_of_mem Prod.fst this
  have hnodup : chunks.flatten.Nodup := by
    rw [← hrd]
    exact (readingOrder_perm regions).nodup_iff.mpr (List.nodup_range _)
  obtain ⟨-, hdisj⟩ := List.nodup_flatten.mp hnodup
  have hdisj_get : ∀ (u v : ℕ) (gu gv : List ℕ), u < v →
      chunks.get? u = some gu → chunks.get? v = some gv →
      ∀ x, x ∈ gu → x ∈ gv → False := by
    intro u v gu gv huv hu hv x hxu hxv
    obtain ⟨hul, hue⟩ := List.get?_eq_some.mp hu
    obtain ⟨hvl, hve⟩ := List.get?_eq_some.mp hv
    have := (List.pairwise_iff_get.mp hdisj) ⟨u, hul⟩ ⟨v, hvl⟩ huv
    rw [hue, hve] at this
    exact this hxu hxv
  -- j is not in the first a+1 chunks, i is not in the later ones
  have hj_not_take : j ∉ (chunks.take (a + 1)).flatten := by
    intro hmem
    obtain ⟨g', hg'_mem, hjg'⟩ := List.mem_flatten.mp hmem
    obtain ⟨m, hm⟩ := List.mem_iff_get?.mp hg'_mem
    have hmlt : m < a + 1 := by
      have := List.get?_eq_some.mp hm
      have hlen := this.1
      rw [List.length_take] at hlen
      omega
    have hm2 : chunks.get? m = some g' := by
      rw [← List.get?_take hmlt]
      exact hm
    exact hdisj_get m b g' ((stableSort xLe gb).map Prod.fst) (by omega) hm2 hfb j hjg' hjb2
  have hi_not_drop : i ∉ (chunks.drop (a + 1)).flatten := by
    intro hmem
    obtain ⟨g', hg'_mem, hig'⟩ := List.mem_flatten.mp hmem
    obtain ⟨m, hm⟩ := List.mem_iff_get?.mp hg'_mem
    have hm2 : chunks.get? (a + 1 + m) = some g' := by
      rw [← List.get?_drop]
      exact hm
    exact hdisj_get a (a + 1 + m) ((stableSort xLe ga).map Prod.fst) g' (by omega)
      hfa hm2 i hia2 hig'
  -- split the reading order at chunk a+1
  have hsplit : chunks.flatten = (chunks.take (a + 1)).flatten ++ (chunks.drop (a + 1)).flatten := by
    conv_lhs => rw [← List.take_append_drop (a + 1) chunks]
    rw [List.flatten_append]
  rw [hrd, hsplit] at hp hq
  have hplt : p < (chunks.take (a + 1)).flatten.length := by
    by_contra hge
    push_neg at hge
    rw [List.get?_append_right hge] at hp
    exact hi_not_drop (List.get?_mem hp)
  have hqge : (chunks.take (a + 1)).flatten.length ≤ q := by
    by_contra hlt
    push_neg at hlt
    rw [List.get?_append hlt] at hq
    exact hj_not_take (List.get?_mem hq)
  omega

/-- Two regions on clearly separate rows. -/
def demoRegions : List Region := [⟨0, 0, 10, 10⟩, ⟨0, 20, 10, 10⟩]

theorem reading_order_spec_witness :
    (determineReadingOrder demoRegions).Perm (List.range 2) ∧ (0 : ℕ) < 1 := by
  obtain ⟨hperm, hord⟩ := reading_order_spec demoRegions
  exact ⟨hperm, hord 0 1 ⟨0, 0, 10, 10⟩ ⟨0, 20, 10, 10⟩ rfl rfl (by decide) (by decide)
    (by decide) 0 1 (by decide) (by decide)⟩

end Structa.Layout

namespace Structa.Tables

/-!  Embedding of the heuristic table-grid extraction of
`processors/tables.py` (`_find_cells` and `_extract_heuristic`), from
the detected line boxes onward: `_detect_lines` is cv2 image processing
whose output (bounding boxes of detected rule lines) is this model's
input. -/

/-- A detected line bounding box `(x, y, w, h)`. -/
structure LineBox where
  x : Int
  y : Int
  w : Int
  h : Int
deriving DecidableEq

structure TableCell where
  row : ℕ
  col : ℕ
  row_span : ℕ
  col_span : ℕ
  text : String
  bbox : Int × Int × Int × Int
  confidence : ℚ
  is_header : Bool
deriving DecidableEq

structure Table where
  bbox : Int × Int × Int × Int
  cells : List TableCell
  num_rows : ℕ
  num_cols : ℕ
  confidence : ℚ
  has_header : Bool
deriving DecidableEq

def insertUnique (a : Int) : List Int → List Int
  | [] => [a]
  | b :: bs =>
    if a < b then a :: b :: bs
    else if a = b then b :: bs
    else b :: insertUnique a bs

/-- `sorted(set(xs))`: distinct values in increasing order. -/
def sortedUnique (l : List Int) : List Int := l.foldr insertUnique []

/-- Consecutive pairs `zip(l, l[1:])`. -/
def pairsOf (l : List Int) : List (Int × Int) := l.zip l.tail

/-- The cell built for row pair `rp` and column pair `cp` (each an
enumeration index with the two consecutive grid positions). -/
def mkCell (rp cp : ℕ × (Int × Int)) : TableCell :=
  { row := rp.1, col := cp.1, row_span := 1, col_span := 1, text := "",
    bbox := (cp.2.1, rp.2.1, cp.2.2 - cp.2.1, rp.2.2 - rp.2.1),
    confidence := mkRat 3 5, is_header := rp.1 == 0 }

/-- `_find_cells` (the unused `image_shape` parameter is dropped). -/
def findCells (horizontalLines verticalLines : List LineBox) : List TableCell :=
  let hPositions := sortedUnique (horizontalLines.map (·.y))
  let vPositions := sortedUnique (verticalLines.map (·.x))
  if hPositions.length < 2 || vPositions.length < 2 then []
  else
    ((pairsOf hPositions).enum.map
      (fun rp => (pairsOf vPositions).enum.map (mkCell rp))).flatten

def intMinOf : List Int → Int
  | [] => 0
  | a :: rest => rest.foldl min a

def intMaxOf : List Int → Int
  | [] => 0
  | a :: rest => rest.foldl max a

/-- `_extract_heuristic` from the detected lines onward.  The optional
pytesseract pass only fills each cell's `text` field and depends on the
environment; it is modelled as absent (the `ImportError` path), leaving
every `text` empty. -/
def extractHeuristic (horizontalLines verticalLines : List LineBox) (offset : Int × Int) :
    List Table :=
  if horizontalLines.isEmpty || verticalLines.isEmpty then []
  else
    let cells := findCells horizontalLines verticalLines
    if cells.isEmpty then []
    else
      let xs := cells.map fun c => c.bbox.1
      let ys := cells.map fun c => c.bbox.2.1
      let ws := cells.map fun c => c.bbox.1 + c.bbox.2.2.1
      let hs := cells.map fun c => c.bbox.2.1 + c.bbox.2.2.2
      [{ bbox := (intMinOf xs + offset.1, intMinOf ys + offset.2,
                  intMaxOf ws - intMinOf xs, intMaxOf hs - intMinOf ys),
         cells := cells,
         num_rows := (cells.map (·.row)).foldl max 0 + 1,
         num_cols := (cells.map (·.col)).foldl max 0 + 1,
         confidence := mkRat 3 5, has_header := true }]

theorem mkRow_mem (rp : ℕ × (Int × Int)) :
    ∀ (l : List (Int × Int)) (n : ℕ) (cell : TableCell),
      cell ∈ (l.enumFrom n).map (mkCell rp) →
      cell.row = rp.1 ∧ n ≤ cell.col ∧ cell.col < n + l.length ∧
      cell.row_span = 1 ∧ cell.col_span = 1 ∧ cell.is_header = (rp.1 == 0) := by
  intro l
  induction l with
  | nil => intro n cell h; simp [List.enumFrom] at h
  | cons cp rest ih =>
    intro n cell h
    simp only [List.enumFrom, List.map_cons, List.mem_cons] at h
    rcases h with rfl | h2
    · refine ⟨rfl, le_refl n, ?_, rfl, rfl, rfl⟩
      simp only [mkCell, List.length_cons]
      omega
    · obtain ⟨h1, h2, h3, h4, h5, h6⟩ := ih (n + 1) cell h2
      refine ⟨h1, by omega, ?_, h4, h5, h6⟩
      simp only [List.length_cons]
      omega

theorem colChunk_filter (rp : ℕ × (Int × Int)) :
    ∀ (l : List (Int × Int)) (n c : ℕ), n ≤ c → c < n + l.length →
      (((l.enumFrom n).map (mkCell rp)).filter (fun cell => cell.col == c)).length = 1 := by
  intro l
  induction l with
  | nil => intro n c h1 h2; simp at h2; omega
  | cons cp rest ih =>
    intro n c h1 h2
    simp only [List.enumFrom, List.map_cons, List.filter_cons]
    by_cases hc : c = n
    · have hhead : ((mkCell rp (n, cp)).col == c) = true := by
        simp [mkCell, hc]
      rw [hhead]
      have hrest : (((rest.enumFrom (n + 1)).map (mkCell rp)).filter
          (fun cell => cell.col == c)).length = 0 := by
        rw [List.length_eq_zero, List.filter_eq_nil]
        intro cell hcell
        have := (mkRow_mem rp rest (n + 1) cell hcell).2.1
        simp only [beq_iff_eq]
        omega
      simp [hrest]
    · have hhead : ((mkCell rp (n, cp)).col == c) = false := by
        simp only [mkCell, beq_eq_false_iff_ne, ne_eq]
        omega
      rw [hhead]
      simp only [Bool.false_eq_true, if_false]
      refine ih (n + 1) c (by omega) ?_
      simp only [List.length_cons] at h2
      omega

theorem grid_filter (vpairs : List (Int × Int)) :
    ∀ (l : List (Int × Int)) (n r c : ℕ), n ≤ r → r < n + l.length → c < vpairs.length →
      ((((l.enumFrom n).map (fun rp => vpairs.enum.map (mkCell rp))).flatten).filter
        (fun cell => cell.row == r && cell.col == c)).length = 1 := by
  intro l
  induction l with
  | nil => intro n r c h1 h2; simp at h2; omega
  | cons hp rest ih =>
    intro n r c h1 h2 hc
    simp only [List.enumFrom, List.map_cons, List.flatten_cons, List.filter_append,
      List.length_append]
    by_cases hr : r = n
    · have hhead : (vpairs.enum.map (mkCell (n, hp))).filter
          (fun cell => cell.row == r && cell.col == c) =
          (vpairs.enum.map (mkCell (n, hp))).filter (fun cell => cell.col == c) := by
        refine List.filter_congr ?_
        intro cell hcell
        have := (mkRow_mem (n, hp) vpairs 0 cell hcell).1
        simp [this, hr]
      have hrest : ((((rest.enumFrom (n + 1)).map
          (fun rp => vpairs.enum.map (mkCell rp))).flatten).filter
          (fun cell => cell.row == r && cell.col == c)).length = 0 := by
        rw [List.length_eq_zero, List.filter_eq_nil]
        intro cell hcell
        obtain ⟨g, hg, hcg⟩ := List.mem_flatten.mp hcell
        obtain ⟨rp, hrp, rfl⟩ := List.mem_map.mp hg
        have hrow := (mkRow_mem rp vpairs 0 cell hcg).1
        have hrp_ge := (Structa.Layout.mem_enumFrom_get rest (n + 1) rp.1 rp.2
          (by simpa using hrp)).1
        simp only [Bool.and_eq_true, beq_iff_eq, not_and]
        intro hre
        omega
      rw [hhead, hrest, Nat.add_zero]
      exact colChunk_filter (n, hp) vpairs 0 c (by omega) (by simpa using hc)
    · have hhead : ((vpairs.enum.map (mkCell (n, hp))).filter
          (fun cell => cell.row == r && cell.col == c)).length = 0 := by
        rw [List.length_eq_zero, List.filter_eq_nil]
        intro cell hcell
        have := (mkRow_mem (n, hp) vpairs 0 cell hcell).1
        simp only [Bool.and_eq_true, beq_iff_eq, not_and]
        intro hre
        omega
      rw [hhead, Nat.zero_add]
      refine ih (n + 1) r c (by omega) ?_ hc
      simp only [List.length_cons] at h2
      omega

theorem cells_mem_bounds (vpairs : List (Int × Int)) :
    ∀ (l : List (Int × Int)) (n : ℕ) (cell : TableCell),
      cell ∈ ((l.enumFrom n).map (fun rp => vpairs.enum.map (mkCell rp))).flatten →
      n ≤ cell.row ∧ cell.row < n + l.length ∧ cell.col < vpairs.length ∧
      cell.row_span = 1 ∧ cell.col_span = 1 ∧ (cell.is_header = true ↔ cell.row = 0) := by
  intro l n cell hcell
  obtain ⟨g, hg, hcg⟩ := List.mem_flatten.mp hcell
  obtain ⟨rp, hrp, rfl⟩ := List.mem_map.mp hg
  obtain ⟨hrow, -, hcol, h4, h5, h6⟩ := mkRow_mem rp vpairs 0 cell hcg
  have hb := Structa.Layout.mem_enumFrom_get l n rp.1 rp.2 (by simpa using hrp)
  have hlt : rp.1 - n < l.length := by
    have := List.get?_eq_some.mp hb.2
    exact this.1
  refine ⟨by omega, by omega, by simpa using hcol, h4, h5, ?_⟩
  rw [h6, hrow]
  simp

theorem foldl_max_le (b : ℕ) :
    ∀ (l : List ℕ) (init : ℕ), init ≤ b → (∀ x ∈ l, x ≤ b) → l.foldl max init ≤ b := by
  intro l
  induction l with
  | nil => intro init h1 _; simpa using h1
  | cons a rest ih =>
    intro init h1 h2
    rw [List.foldl_cons]
    refine ih (max init a) ?_ ?_
    · exact max_le h1 (h2 a (List.mem_cons_self a rest))
    · intro x hx
      exact h2 x (List.mem_cons_of_mem a hx)

/-- C6: with fewer than two distinct line positions on either axis no
grid is returned; otherwise exactly one table is returned whose
`num_rows × num_cols` grid is completely and uniquely covered by
1×1-span cells, with exactly row 0 marked as header. -/
theorem grid_extraction_spec (hl vl : List LineBox) (off : Int × Int) :
    ((sortedUnique (hl.map (·.y))).length < 2 ∨
        (sortedUnique (vl.map (·.x))).length < 2 →
      extractHeuristic hl vl off = []) ∧
    (2 ≤ (sortedUnique (hl.map (·.y))).length →
      2 ≤ (sortedUnique (vl.map (·.x))).length →
      ∃ t, extractHeuristic hl vl off = [t] ∧
        t.num_rows = (sortedUnique (hl.map (·.y))).length - 1 ∧
        t.num_cols = (sortedUnique (vl.map (·.x))).length - 1 ∧
        (∀ r c, r < t.num_rows → c < t.num_cols →
          (t.cells.filter (fun cell => cell.row == r && cell.col == c)).length = 1) ∧
        ∀ cell ∈ t.cells, cell.row_span = 1 ∧ cell.col_span = 1 ∧
          (cell.is_header = true ↔ cell.row = 0)) := by
  constructor
  · intro hlt
    simp only [extractHeuristic]
    split
    · rfl
    · have hcells : findCells hl vl = [] := by
        simp only [findCells]
        rw [if_pos]
        rcases hlt with h | h
        · simp only [Bool.or_eq_true, decide_eq_true_eq]
          exact Or.inl h
        · simp only [Bool.or_eq_true, decide_eq_true_eq]
          exact Or.inr h
      rw [hcells]
      rfl
  · intro hh hv
    set hP := sortedUnique (hl.map (·.y)) with hhP
    set vP := sortedUnique (vl.map (·.x)) with hvP
    have hlne : hl.isEmpty = false := by
      cases hhl : hl with
      | nil => rw [hhl] at hhP; simp [sortedUnique] at hhP; rw [hhP] at hh; simp at hh
      | cons a rest => rfl
    have vlne : vl.isEmpty = false := by
      cases hvl : vl with
      | nil => rw [hvl] at hvP; simp [sortedUnique] at hvP; rw [hvP] at hv; simp at hv
      | cons a rest => rfl
    have hcells_eq : findCells hl vl =
        ((pairsOf hP).enum.map (fun rp => (pairsOf vP).enum.map (mkCell rp))).flatten := by
      simp only [findCells, ← hhP, ← hvP]
      rw [if_neg]
      simp only [Bool.or_eq_true, decide_eq_true_eq]
      push_neg
      omega
    have hplen : (pairsOf hP).length = hP.length - 1 := by
      simp only [pairsOf, List.length_zip, List.length_tail]
      omega
    have vplen : (pairsOf vP).length = vP.length - 1 := by
      simp only [pairsOf, List.length_zip, List.length_tail]
      omega
    have hfilter : ∀ r c, r < hP.length - 1 → c < vP.length - 1 →
        ((findCells hl vl).filter (fun cell => cell.row == r && cell.col == c)).length = 1 := by
      intro r c hr hc
      rw [hcells_eq]
      exact grid_filter (pairsOf vP) (pairsOf hP) 0 r c (Nat.zero_le r)
        (by omega) (by omega)
    have hmem : ∀ cell ∈ findCells hl vl, cell.row < hP.length - 1 ∧
        cell.col < vP.length - 1 ∧ cell.row_span = 1 ∧ cell.col_span = 1 ∧
        (cell.is_header = true ↔ cell.row = 0) := by
      intro cell hcell
      rw [hcells_eq] at hcell
      obtain ⟨-, h2, h3, h4, h5, h6⟩ :=
        cells_mem_bounds (pairsOf vP) (pairsOf hP) 0 cell (by simpa using hcell)
      exact ⟨by omega, by omega, h4, h5, h6⟩
    have hcells_ne : (findCells hl vl).isEmpty = false := by
      have h00 := hfilter 0 0 (by omega) (by omega)
      cases hfc : findCells hl vl with
      | nil => rw [hfc] at h00; simp at h00
      | cons a rest => rfl
    -- the maximal row and column indices
    have hrow_max : ((findCells hl vl).map (·.row)).foldl max 0 = hP.length - 1 - 1 := by
      have h1 : ((findCells hl vl).map (·.row)).foldl max 0 ≤ hP.length - 1 - 1 := by
        refine foldl_max_le _ _ 0 (Nat.zero_le _) ?_
        intro x hx
        obtain ⟨cell, hcell, rfl⟩ := List.mem_map.mp hx
        have := (hmem cell hcell).1
        omega
      have h2 : hP.length - 1 - 1 ≤ ((findCells hl vl).map (·.row)).foldl max 0 := by
        have hf := hfilter (hP.length - 1 - 1) 0 (by omega) (by omega)
        have hexists : ∃ cell ∈ findCells hl vl, cell.row = hP.length - 1 - 1 := by
          rcases hfl : (findCells hl vl).filter
              (fun cell => cell.row == hP.length - 1 - 1 && cell.col == 0) with _ | ⟨a, rest⟩
          · rw [hfl] at hf; simp at hf
          · have hamem : a ∈ (findCells hl vl).filter
                (fun cell => cell.row == hP.length - 1 - 1 && cell.col == 0) := by
              rw [hfl]
              exact List.mem_cons_self a rest
            obtain ⟨ha, hpa⟩ := List.mem_filter.mp hamem
            simp only [Bool.and_eq_true, beq_iff_eq] at hpa
            exact ⟨a, ha, hpa.1⟩
        obtain ⟨cell, hcell, hcr⟩ := hexists
        have := Structa.TableAlignment.mem_le_foldl_max ((findCells hl vl).map (·.row))
          cell.row (List.mem_map_of_mem _ hcell) 0
        omega
      omega
    have hcol_max : ((findCells hl vl).map (·.col)).foldl max 0 = vP.length - 1 - 1 := by
      have h1 : ((findCells hl vl).map (·.col)).foldl max 0 ≤ vP.length - 1 - 1 := by
        refine foldl_max_le _ _ 0 (Nat.zero_le _) ?_
        intro x hx
        obtain ⟨cell, hcell, rfl⟩ := List.mem_map.mp hx
        have := (hmem cell hcell).2.1
        omega
      have h2 : vP.length - 1 - 1 ≤ ((findCells hl vl).map (·.col)).foldl max 0 := by
        have hf := hfilter 0 (vP.length - 1 - 1) (by omega) (by omega)
        have hexists : ∃ cell ∈ findCells hl vl, cell.col = vP.length - 1 - 1 := by
          rcases hfl : (findCells hl vl).filter
              (fun cell => cell.row == 0 && cell.col == vP.length - 1 - 1) with _ | ⟨a, rest⟩
          · rw [hfl] at hf; simp at hf
          · have hamem : a ∈ (findCells hl vl).filter
                (fun cell => cell.row == 0 && cell.col == vP.length - 1 - 1) := by
              rw [hfl]
              exact List.mem_cons_self a rest
            obtain ⟨ha, hpa⟩ := List.mem_filter.mp hamem
            simp only [Bool.and_eq_true, beq_iff_eq] at hpa
            exact ⟨a, ha, hpa.2⟩
        obtain ⟨cell, hcell, hcr⟩ := hexists
        have := Structa.TableAlignment.mem_le_foldl_max ((findCells hl vl).map (·.col))
          cell.col (List.mem_map_of_mem _ hcell) 0
        omega
      omega
    have hunfold : extractHeuristic hl vl off =
        [{ bbox := (intMinOf ((findCells hl vl).map fun c => c.bbox.1) + off.1,
             intMinOf ((findCells hl vl).map fun c => c.bbox.2.1) + off.2,
             intMaxOf ((findCells hl vl).map fun c => c.bbox.1 + c.bbox.2.2.1) -
               intMinOf ((findCells hl vl).map fun c => c.bbox.1),
             intMaxOf ((findCells hl vl).map fun c => c.bbox.2.1 + c.bbox.2.2.2) -
               intMinOf ((findCells hl vl).map fun c => c.bbox.2.1)),
           cells := findCells hl vl,
           num_rows := ((findCells hl vl).map (·.row)).foldl max 0 + 1,
           num_cols := ((findCells hl vl).map (·.col)).foldl max 0 + 1,
           confidence := mkRat 3 5, has_header := true }] := by
      simp only [extractHeuristic]
      rw [if_neg (by simp [hlne, vlne]), if_neg (by rw [hcells_ne]; simp)]
    refine ⟨_, hunfold, ?_, ?_, ?_, ?_⟩
    · simp only
      rw [hrow_max]
      omega
    · simp only
      rw [hcol_max]
      omega
    · intro r c hr hc
      simp only at hr hc ⊢
      rw [hrow_max] at hr
      rw [hcol_max] at hc
      exact hfilter r c (by omega) (by omega)
    · intro cell hcell
      simp only at hcell
      obtain ⟨-, -, h3, h4, h5⟩ := hmem cell hcell
      exact ⟨h3, h4, h5⟩

theorem grid_extraction_spec_witness :
    extractHeuristic [⟨0, 0, 50, 1⟩] [⟨0, 0, 1, 50⟩] (0, 0) = [] ∧
    ∃ t, extractHeuristic [⟨0, 0, 50, 1⟩, ⟨0, 30, 50, 1⟩, ⟨0, 60, 50, 1⟩]
        [⟨0, 0, 1, 50⟩, ⟨40, 0, 1, 50⟩] (0, 0) = [t] ∧
      t.num_rows = 2 ∧ t.num_cols = 1 ∧
      (t.cells.filter (fun cell => cell.row == 1 && cell.col == 0)).length = 1 := by
  constructor
  · exact (grid_extraction_spec [⟨0, 0, 50, 1⟩] [⟨0, 0, 1, 50⟩] (0, 0)).1 (by decide)
  · obtain ⟨t, h1, h2, h3, h4, h5⟩ :=
      (grid_extraction_spec [⟨0, 0, 50, 1⟩, ⟨0, 30, 50, 1⟩, ⟨0, 60, 50, 1⟩]
        [⟨0, 0, 1, 50⟩, ⟨40, 0, 1, 50⟩] (0, 0)).2 (by decide) (by decide)
    refine ⟨t, h1, by rw [h2]; decide, by rw [h3]; decide, ?_⟩
    refine h4 1 0 (by rw [h2]; decide) (by rw [h3]; decide)

end Structa.Tables

namespace Structa.Structuring

/-!  Embedding of `processors/structuring.py` (`DataStructurer`).  The
lines fed to the key-value patterns come from `text.split` at newlines,
so they never contain a newline and `.` behaves as "any character". -/

/-- The class `[A-Za-z\s]` of the label group. -/
def isKvClassChar (c : Char) : Bool := c.isAlpha || isPySpace c

/-- Pattern `^([A-Za-z\s]+):\s*(.+)$`.  The colon is outside the label
class, so the greedy label is the maximal class run; when everything
after the colon is whitespace, `\s*` backtracks one character so that
`(.+)` is non-empty. -/
def kvMatch1 (cs : List Char) : Option (List Char × List Char) :=
  let run := cs.takeWhile isKvClassChar
  let rest := cs.dropWhile isKvClassChar
  if run.isEmpty then none
  else
    match rest with
    | ':' :: r =>
      let tail := r.dropWhile isPySpace
      if tail.isEmpty then
        match r.reverse with
        | [] => none
        | lastc :: _ => some (run, [lastc])
      else some (run, tail)
    | _ => none

/-- Pattern `^([A-Za-z\s]+)\s*-\s*(.+)$`.  The hyphen is outside the
label class, so it must sit right after the maximal class run. -/
def kvMatch2 (cs : List Char) : Option (List Char × List Char) :=
  let run := cs.takeWhile isKvClassChar
  let rest := cs.dropWhile isKvClassChar
  if run.isEmpty then none
  else
    match rest with
    | '-' :: r =>
      let tail := r.dropWhile isPySpace
      if tail.isEmpty then
        match r.reverse with
        | [] => none
        | lastc :: _ => some (run, [lastc])
      else some (run, tail)
    | _ => none

/-- Backtracking search for `^([A-Za-z\s]+)\s{2,}(.+)$`: the greedy
label tries the longest prefix first (`kk` descending); for each prefix
the run of following whitespace is taken greedily, giving back one
character only when the string would otherwise end. -/
def kvMatch3Aux (cs : List Char) : ℕ → Option (List Char × List Char)
  | 0 => none
  | k + 1 =>
    let kk := k + 1
    let wsLen := ((cs.drop kk).takeWhile isPySpace).length
    let m := if kk + wsLen < cs.length then wsLen else wsLen - 1
    if 2 ≤ m && kk + m < cs.length then some (cs.take kk, cs.drop (kk + m))
    else kvMatch3Aux cs k

def kvMatch3 (cs : List Char) : Option (List Char × List Char) :=
  kvMatch3Aux cs (cs.takeWhile isKvClassChar).length

/-- The `key_value_patterns` tried in order, first match wins. -/
def firstKvMatch (cs : List Char) : Option (List Char × List Char) :=
  match kvMatch1 cs with
  | some r => some r
  | none =>
    match kvMatch2 cs with
    | some r => some r
    | none => kvMatch3 cs

/-- `_parse_value` of the structuring engine: boolean tokens, then a
number after stripping commas and currency symbols, else the string. -/
def parseKvValue (value : String) : PyValue :=
  let lower := value.data.map Char.toLower
  if lower = "yes".data || lower = "true".data || lower = "y".data then .bool true
  else if lower = "no".data || lower = "false".data || lower = "n".data then .bool false
  else
    let clean := value.data.filter fun c => c ≠ ',' && c ≠ '$' && c ≠ '€' && c ≠ '£'
    if clean.contains '.' then
      match pyFloatOf clean with
      | some x => .num x
      | none => .str value
    else
      match pyIntOf clean with
      | some n => .int n
      | none => .str value

/-- `match.group(1).strip().lower().replace(chr(32), chr(95))`. -/
def kvKeyOf (g1 : List Char) : String :=
  String.mk (((pyStrip g1).map Char.toLower).map fun c => if c = ' ' then '_' else c)

/-- The key-value pair one line contributes, if any. -/
def kvOfLine (line : List Char) : Option (String × PyValue) :=
  match firstKvMatch (pyStrip line) with
  | some (g1, g2) => some (kvKeyOf g1, parseKvValue (String.mk (pyStrip g2)))
  | none => none

/-- Python dict assignment `d[k] = v`: replace in place if the key
exists (keeping its insertion position), else append. -/
def dictInsert (d : List (String × PyValue)) (k : String) (v : PyValue) :
    List (String × PyValue) :=
  if d.any (fun p => p.1 == k) then d.map (fun p => if p.1 == k then (k, v) else p)
  else d ++ [(k, v)]

/-- `_extract_key_values`. -/
def extractKeyValues (text : String) : List (String × PyValue) :=
  (splitOnNl text.data).foldl
    (fun d line =>
      match kvOfLine line with
      | some (k, v) => dictInsert d k v
      | none => d) []

/-- Dictionary lookup `d.get(k)`. -/
def kvLookup : List (String × PyValue) → String → Option PyValue
  | [], _ => none
  | p :: rest, k => if p.1 == k then some p.2 else kvLookup rest k

/-- C5: the two specified lines extract as claimed; in general the first
matching pattern determines the pair, the key being the label stripped,
lower-cased and space-to-underscore mapped, and the value coerced to
boolean for the six boolean tokens, else to a number when the
comma/currency-stripped string parses, else kept as the string. -/
theorem key_value_extraction_spec :
    extractKeyValues "Invoice Number:   INV-2024-001" =
      [("invoice_number", .str "INV-2024-001")] ∧
    extractKeyValues "Paid: yes" = [("paid", .bool true)] ∧
    (∀ line g1 g2 : List Char, firstKvMatch (pyStrip line) = some (g1, g2) →
      kvOfLine line = some (kvKeyOf g1, parseKvValue (String.mk (pyStrip g2)))) ∧
    (∀ v : String,
      (v.data.map Char.toLower = "yes".data ∨ v.data.map Char.toLower = "true".data ∨
          v.data.map Char.toLower = "y".data →
        parseKvValue v = .bool true) ∧
      (v.data.map Char.toLower = "no".data ∨ v.data.map Char.toLower = "false".data ∨
          v.data.map Char.toLower = "n".data →
        parseKvValue v = .bool false) ∧
      (v.data.map Char.toLower ≠ "yes".data → v.data.map Char.toLower ≠ "true".data →
        v.data.map Char.toLower ≠ "y".data → v.data.map Char.toLower ≠ "no".data →
        v.data.map Char.toLower ≠ "false".data → v.data.map Char.toLower ≠ "n".data →
        (∀ x, (v.data.filter fun c => c ≠ ',' && c ≠ '$' && c ≠ '€' && c ≠ '£').contains '.'
              = true →
          pyFloatOf (v.data.filter fun c => c ≠ ',' && c ≠ '$' && c ≠ '€' && c ≠ '£')
              = some x →
          parseKvValue v = .num x) ∧
        (∀ n : ℤ, (v.data.filter fun c => c ≠ ',' && c ≠ '$' && c ≠ '€' && c ≠ '£').contains '.'
              = false →
          pyIntOf (v.data.filter fun c => c ≠ ',' && c ≠ '$' && c ≠ '€' && c ≠ '£')
              = some n →
          parseKvValue v = .int n) ∧
        ((v.data.filter fun c => c ≠ ',' && c ≠ '$' && c ≠ '€' && c ≠ '£').contains '.'
              = true →
          pyFloatOf (v.data.filter fun c => c ≠ ',' && c ≠ '$' && c ≠ '€' && c ≠ '£')
              = none →
          parseKvValue v = .str v) ∧
        ((v.data.filter fun c => c ≠ ',' && c ≠ '$' && c ≠ '€' && c ≠ '£').contains '.'
              = false →
          pyIntOf (v.data.filter fun c => c ≠ ',' && c ≠ '$' && c ≠ '€' && c ≠ '£')
              = none →
          parseKvValue v = .str v))) := by
  refine ⟨by decide, by decide, ?_, ?_⟩
  · intro line g1 g2 h
    simp [kvOfLine, h]
  · intro v
    refine ⟨?_, ?_, ?_⟩
    · intro h
      simp only [parseKvValue]
      rcases h with h | h | h <;> rw [h] <;> rw [if_pos (by decide)]
    · intro h
      simp only [parseKvValue]
      rcases h with h | h | h <;> rw [h] <;>
        rw [if_neg (by decide), if_pos (by decide)]
    · intro h1 h2 h3 h4 h5 h6
      refine ⟨?_, ?_, ?_, ?_⟩
      · intro x hdot hparse
        simp only [parseKvValue]
        rw [if_neg (by simp [h1, h2, h3]), if_neg (by simp [h4, h5, h6])]
        simp only [ne_eq, decide_not] at hparse
        simp at hdot
        simp [hdot, hparse]
      · intro n hdot hparse
        simp only [parseKvValue]
        rw [if_neg (by simp [h1, h2, h3]), if_neg (by simp [h4, h5, h6])]
        simp only [ne_eq, decide_not] at hparse
        simp at hdot
        simp [hdot, hparse]
      · intro hdot hparse
        simp only [parseKvValue]
        rw [if_neg (by simp [h1, h2, h3]), if_neg (by simp [h4, h5, h6])]
        simp only [ne_eq, decide_not] at hparse
        simp at hdot
        simp [hdot, hparse]
      · intro hdot hparse
        simp only [parseKvValue]
        rw [if_neg (by simp [h1, h2, h3]), if_neg (by simp [h4, h5, h6])]
        simp only [ne_eq, decide_not] at hparse
        simp at hdot
        simp [hdot, hparse]

theorem key_value_extraction_spec_witness :
    extractKeyValues "Paid: yes" = [("paid", .bool true)] ∧
    kvOfLine "Paid: yes".data =
      some (kvKeyOf "Paid".data, parseKvValue (String.mk (pyStrip "yes".data))) ∧
    parseKvValue "yes" = .bool true := by
  have h := key_value_extraction_spec
  refine ⟨h.2.1, ?_, ?_⟩
  · exact h.2.2.1 "Paid: yes".data "Paid".data "yes".data (by decide)
  · exact (h.2.2.2 "yes").1 (Or.inl (by decide))

theorem dictInsert_length_le (d : List (String × PyValue)) (k : String) (v : PyValue) :
    (dictInsert d k v).length ≤ d.length + 1 := by
  simp only [dictInsert]
  split
  · simp
  · simp

theorem getLast?_cons_eq (a : α) (l : List α) :
    (a :: l).getLast? = some (l.getLast?.getD a) := by
  induction l generalizing a with
  | nil => rfl
  | cons b l2 ih =>
    rw [List.getLast?_cons_cons, ih b]
    simp

theorem kvLookup_map_replace (k : String) (v : PyValue) (k2 : String) (hne : k2 ≠ k) :
    ∀ d : List (String × PyValue),
      kvLookup (d.map fun p => if p.1 == k then (k, v) else p) k2 = kvLookup d k2 := by
  intro d
  induction d with
  | nil => rfl
  | cons p rest ih =>
    simp only [List.map_cons, kvLookup]
    by_cases hp : p.1 = k
    · have h1 : (p.1 == k) = true := by simp [hp]
      rw [h1]
      simp only [if_true]
      have h2 : (k == k2) = false := by simp [Ne.symm hne]
      have h3 : (p.1 == k2) = false := by simp [hp, Ne.symm hne]
      simp only [kvLookup, h2, h3, Bool.false_eq_true, if_false]
      exact ih
    · have h1 : (p.1 == k) = false := by simp [hp]
      rw [h1]
      simp only [Bool.false_eq_true, if_false, kvLookup]
      split
      · rfl
      · exact ih

theorem kvLookup_map_replace_found (k : String) (v : PyValue) :
    ∀ d : List (String × PyValue), d.any (fun p => p.1 == k) = true →
      kvLookup (d.map fun p => if p.1 == k then (k, v) else p) k = some v := by
  intro d
  induction d with
  | nil => intro h; simp at h
  | cons p rest ih =>
    intro h
    simp only [List.map_cons, kvLookup]
    by_cases hp : p.1 = k
    · have h1 : (p.1 == k) = true := by simp [hp]
      rw [h1]
      simp [kvLookup]
    · have h1 : (p.1 == k) = false := by simp [hp]
      rw [h1]
      simp only [Bool.false_eq_true, if_false, kvLookup, h1]
      refine ih ?_
      simp only [List.any_cons, h1, Bool.false_or] at h
      exact h

theorem kvLookup_append_not_found (k : String) :
    ∀ d : List (String × PyValue), d.any (fun p => p.1 == k) = false →
      ∀ v, kvLookup (d ++ [(k, v)]) k = some v := by
  intro d
  induction d with
  | nil => intro _ v; simp [kvLookup]
  | cons p rest ih =>
    intro h v
    simp only [List.any_cons, Bool.or_eq_false_iff] at h
    simp only [List.cons_append, kvLookup, h.1, Bool.false_eq_true, if_false]
    exact ih h.2 v

theorem kvLookup_append_other (k k2 : String) (hne : k2 ≠ k) (v : PyValue) :
    ∀ d : List (String × PyValue), kvLookup (d ++ [(k, v)]) k2 = kvLookup d k2 := by
  intro d
  induction d with
  | nil => simp [kvLookup, Ne.symm hne]
  | cons p rest ih =>
    simp only [List.cons_append, kvLookup]
    split
    · rfl
    · exact ih

theorem kvLookup_dictInsert_same (d : List (String × PyValue)) (k : String) (v : PyValue) :
    kvLookup (dictInsert d k v) k = some v := by
  simp only [dictInsert]
  split
  · rename_i h
    exact kvLookup_map_replace_found k v d h
  · rename_i h
    refine kvLookup_append_not_found k d ?_ v
    cases hb : d.any (fun p => p.1 == k) with
    | false => rfl
    | true => exact absurd hb h

theorem kvLookup_dictInsert_other (d : List (String × PyValue)) (k k2 : String)
    (hne : k2 ≠ k) (v : PyValue) :
    kvLookup (dictInsert d k v) k2 = kvLookup d k2 := by
  simp only [dictInsert]
  split
  · exact kvLookup_map_replace k v k2 hne d
  · exact kvLookup_append_other k k2 hne v d

theorem foldl_dictInsert_lookup (k : String) :
    ∀ (ps : List (String × PyValue)) (d : List (String × PyValue)),
      kvLookup (ps.foldl (fun d p => dictInsert d p.1 p.2) d) k =
        match (ps.filter (fun p => p.1 == k)).getLast? with
        | some p => some p.2
        | none => kvLookup d k := by
  intro ps
  induction ps with
  | nil => intro d; rfl
  | cons p ps ih =>
    intro d
    rw [List.foldl_cons, ih (dictInsert d p.1 p.2), List.filter_cons]
    by_cases hp : p.1 = k
    · have hb : (p.1 == k) = true := by simp [hp]
      rw [hb]
      simp only [if_true]
      rw [getLast?_cons_eq]
      cases hl : (ps.filter fun p => p.1 == k).getLast? with
      | none =>
        simp only [hl, Option.getD_none]
        rw [← hp]
        exact (kvLookup_dictInsert_same d p.1 p.2).symm ▸ rfl
      | some q => simp [hl]
    · have hb : (p.1 == k) = false := by simp [hp]
      rw [hb]
      simp only [Bool.false_eq_true, if_false]
      cases hl : (ps.filter fun p => p.1 == k).getLast? with
      | none =>
        simp only [hl]
        exact kvLookup_dictInsert_other d p.1 k (Ne.symm hp) p.2
      | some q => simp [hl]

theorem foldl_lines_eq (lines : List (List Char)) :
    ∀ d : List (String × PyValue),
      lines.foldl (fun d line =>
        match kvOfLine line with
        | some (k, v) => dictInsert d k v
        | none => d) d =
      (lines.filterMap kvOfLine).foldl (fun d p => dictInsert d p.1 p.2) d := by
  induction lines with
  | nil => intro d; rfl
  | cons line rest ih =>
    intro d
    rw [List.foldl_cons, List.filterMap_cons]
    cases h : kvOfLine line with
    | none => exact ih d
    | some p =>
      cases p with
      | mk k v => exact ih (dictInsert d k v)

theorem foldl_dictInsert_length (ps : List (String × PyValue)) :
    ∀ d : List (String × PyValue),
      (ps.foldl (fun d p => dictInsert d p.1 p.2) d).length ≤ d.length + ps.length := by
  induction ps with
  | nil => intro d; simp
  | cons p ps ih =>
    intro d
    rw [List.foldl_cons]
    have h1 := ih (dictInsert d p.1 p.2)
    have h2 := dictInsert_length_le d p.1 p.2
    simp only [List.length_cons]
    omega

/-- C10 (implicit): when several lines derive the same key the mapping
keeps a single entry holding the last matching line's parsed value, so
the mapping can be strictly smaller than the number of matching lines. -/
theorem key_value_overwrite_spec :
    extractKeyValues "Total: 5\nTotal: 7" = [("total", .int 7)] ∧
    ((splitOnNl ("Total: 5\nTotal: 7").data).filterMap kvOfLine).length = 2 ∧
    (extractKeyValues "Total: 5\nTotal: 7").length = 1 ∧
    (∀ text : String, (extractKeyValues text).length ≤
      ((splitOnNl text.data).filterMap kvOfLine).length) ∧
    (∀ (text : String) (k : String),
      kvLookup (extractKeyValues text) k =
        match ((splitOnNl text.data).filterMap kvOfLine).filter
            (fun p => p.1 == k) |>.getLast? with
        | some p => some p.2
        | none => none) := by
  refine ⟨by decide, by decide, by decide, ?_, ?_⟩
  · intro text
    rw [extractKeyValues, foldl_lines_eq]
    simpa using foldl_dictInsert_length ((splitOnNl text.data).filterMap kvOfLine) []
  · intro text k
    rw [extractKeyValues, foldl_lines_eq, foldl_dictInsert_lookup]
    cases ((splitOnNl text.data).filterMap kvOfLine).filter (fun p => p.1 == k) |>.getLast? with
    | none => rfl
    | some q => rfl

end Structa.Structuring

namespace Structa.Structuring

/-!  The `structure` pipeline.  Input dictionaries are modelled as
records carrying the fields the code reads; numeric coordinates are
exact rationals. -/

structure OcrBlock where
  text : String
  bbox : ℚ × ℚ × ℚ × ℚ
  confidence : ℚ
deriving DecidableEq

structure OcrResult where
  blocks : List OcrBlock
  full_text : String
  average_confidence : ℚ
  languages_detected : List String
deriving DecidableEq

structure RegionIn where
  type : String
  bbox : ℚ × ℚ × ℚ × ℚ
  confidence : ℚ
deriving DecidableEq

structure LayoutIn where
  regions : List RegionIn
  page_size : ℚ × ℚ
  has_tables : Bool
  has_figures : Bool
deriving DecidableEq

structure TableIn where
  bbox : ℚ × ℚ × ℚ × ℚ
  matrix : List (List String)
deriving DecidableEq

/-- A present `table_result` dict (a present dict is truthy even when
its `tables` list is empty; `None` is modelled by `Option.none`). -/
structure TableResultIn where
  tables : List TableIn
deriving DecidableEq

inductive BlockType where
  | text
  | title
  | heading
  | paragraph
  | list
  | list_item
  | table
  | key_value
  | figure
  | equation
  | code
  | metadata
deriving DecidableEq

inductive BlockContent where
  | str (s : String)
  | items (l : List String)
  | matrix (m : List (List String))
deriving DecidableEq

structure ContentBlock where
  type : BlockType
  content : BlockContent
  bbox : Option (ℚ × ℚ × ℚ × ℚ)
  confidence : ℚ
  page : ℕ
  order : ℕ
deriving DecidableEq

/-- `_map_region_type`. -/
def mapRegionType (t : String) : BlockType :=
  if t = "text" then .paragraph
  else if t = "title" then .title
  else if t = "paragraph" then .paragraph
  else if t = "list" then .list
  else if t = "table" then .table
  else if t = "figure" then .figure
  else if t = "header" then .metadata
  else if t = "footer" then .metadata
  else .text

/-- `_get_text_in_region`: join the texts of the OCR blocks whose center
lies inside the region box. -/
def getTextInRegion (ocrBlocks : List OcrBlock) (rbox : ℚ × ℚ × ℚ × ℚ) : String :=
  joinSpaces ((ocrBlocks.filter fun b =>
    let cx := ratAdd b.bbox.1 (ratDiv b.bbox.2.2.1 (mkRat 2 1))
    let cy := ratAdd b.bbox.2.1 (ratDiv b.bbox.2.2.2 (mkRat 2 1))
    ratLe rbox.1 cx && ratLe cx (ratAdd rbox.1 rbox.2.2.1) &&
      ratLe rbox.2.1 cy && ratLe cy (ratAdd rbox.2.1 rbox.2.2.2)).map (·.text))

/-- `_find_table_for_region`: first table whose overlap with the region
exceeds half the table area. -/
def findTableForRegion (tr : TableResultIn) (rbox : ℚ × ℚ × ℚ × ℚ) : Option TableIn :=
  tr.tables.find? fun table =>
    let ox := ratMax (mkRat 0 1)
      (ratSub (ratMin (ratAdd rbox.1 rbox.2.2.1) (ratAdd table.bbox.1 table.bbox.2.2.1))
        (ratMax rbox.1 table.bbox.1))
    let oy := ratMax (mkRat 0 1)
      (ratSub (ratMin (ratAdd rbox.2.1 rbox.2.2.2) (ratAdd table.bbox.2.1 table.bbox.2.2.2))
        (ratMax rbox.2.1 table.bbox.2.1))
    let tableArea := ratMul table.bbox.2.2.1 table.bbox.2.2.2
    ratLt (mkRat 0 1) tableArea &&
      ratLt (mkRat 1 2) (ratDiv (ratMul ox oy) tableArea)

/-- The single-character class of leading list markers (the `+` in the
source class is a literal character there). -/
def isListMarkChar (c : Char) : Bool :=
  c = '-' || c = '*' || c = '•' || c = '◦' || c = '▪' || c.isDigit || c = '+' || c = '.'

/-- `re.sub` of the anchored marker pattern: at most one marker char and
the following whitespace are removed from the front. -/
def stripListMarker (l : List Char) : List Char :=
  match l with
  | c :: rest => if isListMarkChar c then rest.dropWhile isPySpace else c :: rest
  | [] => []

/-- `_parse_list`. -/
def parseList (text : String) : List String :=
  let items := (splitOnNl text.data).filterMap fun line =>
    let l := pyStrip line
    if l.isEmpty then none
    else
      let cleaned := stripListMarker l
      if cleaned.isEmpty then none else some (String.mk cleaned)
  if items.isEmpty then [text] else items

/-- Python `str.isupper` (ASCII): some upper-case letter and no
lower-case letter. -/
def pyIsUpper (cs : List Char) : Bool :=
  cs.any Char.isUpper && cs.all fun c => !c.isLower

/-- `^[...markers]\s+` as a boolean test. -/
def listItemMatch (cs : List Char) : Bool :=
  match cs with
  | c :: rest => isListMarkChar c && !(rest.takeWhile isPySpace).isEmpty
  | [] => false

/-- `_classify_text`. -/
def classifyText (text : String) : BlockType :=
  let t := pyStrip text.data
  if (kvMatch1 t).isSome then .key_value
  else if (kvMatch2 t).isSome then .key_value
  else if (kvMatch3 t).isSome then .key_value
  else if listItemMatch t then .list_item
  else if pyIsUpper t && decide (t.length < 50) then .heading
  else .paragraph

/-- Sort key `(bbox[1], bbox[0])` of `_blocks_from_ocr`. -/
def ocrLe (a b : OcrBlock) : Bool :=
  ratLt a.bbox.2.1 b.bbox.2.1 ||
    (a.bbox.2.1 == b.bbox.2.1 && ratLe a.bbox.1 b.bbox.1)

/-- The `_blocks_from_ocr` accumulation loop.  In the new-line branch
the source evaluates `b.get("confidence", 0.5)` over a list of plain
strings, which raises `AttributeError` whenever the current line is
non-empty; the error value models that exception. -/
def blocksFromOcrLoop : ℚ → List String → List OcrBlock → Except String (List String)
  | _, clText, [] => .ok clText
  | clY, clText, b :: rest =>
    let y := b.bbox.2.1
    let clY2 := if ratLt clY (mkRat 0 1) then y else clY
    if ratLt (mkRat 20 1) (ratAbs (ratSub y clY2)) then
      if clText.isEmpty then blocksFromOcrLoop y [b.text] rest
      else .error "AttributeError: str object has no attribute get"
    else blocksFromOcrLoop clY2 (clText ++ [b.text]) rest

/-- `_blocks_from_ocr`: because every completed line crashes as above,
`line_blocks` can only ever receive the final flush. -/
def blocksFromOcr (ocrBlocks : List OcrBlock) : Except String (List ContentBlock) :=
  let sorted := Structa.Layout.stableSort ocrLe ocrBlocks
  match blocksFromOcrLoop (mkRat (-1) 1) [] sorted with
  | .error e => .error e
  | .ok clText =>
    if clText.isEmpty then .ok []
    else
      let text := joinSpaces clText
      .ok [{ type := classifyText text, content := .str text, bbox := Option.none,
             confidence := mkRat 1 1, page := 1, order := 0 }]

/-- Python `str(...)` of block content; only the string case is ever
reached by title extraction (title and heading blocks always carry
strings), the list renderings approximate `repr`. -/
def contentAsStr : BlockContent → String
  | .str s => s
  | .items l =>
    "[" ++ String.intercalate ", " (l.map fun s => "\x27" ++ s ++ "\x27") ++ "]"
  | .matrix m =>
    "[" ++ String.intercalate ", "
      (m.map fun l =>
        "[" ++ String.intercalate ", " (l.map fun s => "\x27" ++ s ++ "\x27") ++ "]") ++ "]"

/-- `_extract_title`. -/
def extractTitle (blocks : List ContentBlock) : Option String :=
  match blocks.find? (fun b => b.type == BlockType.title) with
  | some b => some (contentAsStr b.content)
  | none =>
    match blocks.find? (fun b => b.type == BlockType.heading) with
    | some b => some (contentAsStr b.content)
    | none => none

def firstSome : List (Option α) → Option α
  | [] => none
  | (some a) :: _ => some a
  | none :: rest => firstSome rest

/-- Test the date pattern `\d{1,2}S\d{1,2}S\d{2,4}` (S the class of
slash and hyphen) at the head of `cs`; returns the suffix after the
match.  Alternatives are tried in the greedy order of the `re` engine. -/
def dateAt1 (cs : List Char) : Option (List Char) :=
  firstSome <| [2, 1].map fun n1 =>
    let d1 := cs.take n1
    if d1.length = n1 && d1.all Char.isDigit then
      match cs.drop n1 with
      | s1 :: rest1 =>
        if Structa.TableAlignment.isDateSep s1 then
          firstSome <| [2, 1].map fun n2 =>
            let d2 := rest1.take n2
            if d2.length = n2 && d2.all Char.isDigit then
              match rest1.drop n2 with
              | s2 :: rest2 =>
                if Structa.TableAlignment.isDateSep s2 then
                  firstSome <| [4, 3, 2].map fun n3 =>
                    let d3 := rest2.take n3
                    if d3.length = n3 && d3.all Char.isDigit then some (rest2.drop n3)
                    else none
                else none
              | [] => none
            else none
        else none
      | [] => none
    else none

/-- The date pattern `\d{4}S\d{1,2}S\d{1,2}` at the head of `cs`. -/
def dateAt2 (cs : List Char) : Option (List Char) :=
  let d1 := cs.take 4
  if d1.length = 4 && d1.all Char.isDigit then
    match cs.drop 4 with
    | s1 :: rest1 =>
      if Structa.TableAlignment.isDateSep s1 then
        firstSome <| [2, 1].map fun n2 =>
          let d2 := rest1.take n2
          if d2.length = n2 && d2.all Char.isDigit then
            match rest1.drop n2 with
            | s2 :: rest2 =>
              if Structa.TableAlignment.isDateSep s2 then
                firstSome <| [2, 1].map fun n3 =>
                  let d3 := rest2.take n3
                  if d3.length = n3 && d3.all Char.isDigit then some (rest2.drop n3)
                  else none
              else none
            | [] => none
          else none
      else none
    | [] => none
  else none

def isPyWordChar (c : Char) : Bool := c.isAlphanum || c = '_'

/-- The month-name date pattern (with word boundaries and
`re.IGNORECASE`) at the head of `cs`; `prev` is the character before the
current position, for the leading `\b`. -/
def dateAt3 (prev : Option Char) (cs : List Char) : Option (List Char) :=
  let boundaryOk : Bool :=
    match prev with
    | none => true
    | some c => !isPyWordChar c
  if !boundaryOk then none
  else
    match cs with
    | a :: b2 :: c :: rest =>
      if Structa.TableAlignment.monthAbbrevs.contains [a.toLower, b2.toLower, c.toLower] then
        let rest1 := rest.dropWhile Char.isAlpha
        let ws1 := rest1.takeWhile isPySpace
        let rest2 := rest1.dropWhile isPySpace
        if ws1.isEmpty then none
        else
          firstSome <| [2, 1].map fun n1 =>
            let d1 := rest2.take n1
            if d1.length = n1 && d1.all Char.isDigit then
              let afterD := rest2.drop n1
              let commaAlts : List (List Char) :=
                match afterD with
                | ',' :: r => [r, afterD]
                | _ => [afterD]
              firstSome <| commaAlts.map fun r2 =>
                let ws2 := r2.takeWhile isPySpace
                let r3 := r2.dropWhile isPySpace
                if ws2.isEmpty then none
                else
                  let d2 := r3.take 4
                  if d2.length = 4 && d2.all Char.isDigit then
                    match r3.drop 4 with
                    | [] => some []
                    | c2 :: r4 => if isPyWordChar c2 then none else some (c2 :: r4)
                  else none
            else none
      else none
    | _ => none

/-- The currency pattern `[symbols]\s*[digits,]+\.?\d*` at the head. -/
def currencyAt (_prev : Option Char) (cs : List Char) : Option (List Char) :=
  match cs with
  | c :: rest =>
    if c = '$' || c = '£' || c = '€' || c = '¥' then
      let rest2 := rest.dropWhile isPySpace
      let run := rest2.takeWhile fun ch => ch.isDigit || ch = ','
      if run.isEmpty then none
      else
        match rest2.dropWhile (fun ch => ch.isDigit || ch = ',') with
        | '.' :: r => some (r.dropWhile Char.isDigit)
        | r => some r
    else none
  | [] => none

/-- `re.findall` scanning loop: at each position try the pattern; on a
match emit the matched text and resume after it, else advance one
character.  `prev` carries the previous character for `\b`. -/
def findAllAux (matchAt : Option Char → List Char → Option (List Char)) :
    ℕ → Option Char → List Char → List (List Char)
  | 0, _, _ => []
  | fuel + 1, prev, cs =>
    match cs with
    | [] => []
    | c :: rest =>
      match matchAt prev cs with
      | some remaining =>
        let n := cs.length - remaining.length
        if n = 0 then findAllAux matchAt fuel (some c) rest
        else (cs.take n) :: findAllAux matchAt fuel (cs.take n).getLast? remaining
      | none => findAllAux matchAt fuel (some c) rest

def findAll (matchAt : Option Char → List Char → Option (List Char))
    (cs : List Char) : List String :=
  (findAllAux matchAt (cs.length + 1) Option.none cs).map String.mk

structure DocMetadata where
  ocr_confidence : ℚ
  languages : List String
  page_size : ℚ × ℚ
  has_tables : Bool
  has_figures : Bool
  num_regions : ℕ
  num_tables : ℕ
  num_key_values : ℕ
  dates_found : List String
  currency_values : List String
deriving DecidableEq

/-- `_build_metadata` (`dates_found` and `currency_values` are keys the
code adds only when non-empty; they are modelled as possibly empty
lists). -/
def buildMetadata (ocr : OcrResult) (layout : LayoutIn) (tableResult : Option TableResultIn)
    (keyValues : List (String × PyValue)) : DocMetadata :=
  let text := ocr.full_text.data
  let dates := findAll (fun _ cs => dateAt1 cs) text ++
    findAll (fun _ cs => dateAt2 cs) text ++ findAll dateAt3 text
  { ocr_confidence := ocr.average_confidence,
    languages := ocr.languages_detected,
    page_size := layout.page_size,
    has_tables := layout.has_tables,
    has_figures := layout.has_figures,
    num_regions := layout.regions.length,
    num_tables := match tableResult with
      | some tr => tr.tables.length
      | Option.none => 0,
    num_key_values := keyValues.length,
    dates_found := dates.take 5,
    currency_values := (findAll currencyAt text).take 5 }

structure StructuredDocument where
  title : Option String
  blocks : List ContentBlock
  metadata : DocMetadata
  tables : List TableIn
  key_values : List (String × PyValue)
  raw_text : String
deriving DecidableEq

/-- The content block built from one enumerated layout region. -/
def regionBlock (tableResult : Option TableResultIn) (ocrBlocks : List OcrBlock)
    (p : ℕ × RegionIn) : ContentBlock :=
  let regionText := getTextInRegion ocrBlocks p.2.bbox
  let bt := mapRegionType p.2.type
  let content :=
    match bt, tableResult with
    | BlockType.table, some tr =>
      match findTableForRegion tr p.2.bbox with
      | some td => BlockContent.matrix td.matrix
      | Option.none => BlockContent.str regionText
    | _, _ =>
      if bt = BlockType.list then BlockContent.items (parseList regionText)
      else BlockContent.str regionText
  { type := bt, content := content, bbox := some p.2.bbox,
    confidence := p.2.confidence, page := 1, order := p.1 }

/-- `structure`: fuse regions, OCR text and tables into a document; the
error value models the `AttributeError` of the OCR fallback path. -/
def structureDoc (ocr : OcrResult) (layout : LayoutIn)
    (tableResult : Option TableResultIn) : Except String StructuredDocument :=
  let blocks := layout.regions.enum.map (regionBlock tableResult ocr.blocks)
  let blocksE : Except String (List ContentBlock) :=
    if blocks.isEmpty && !ocr.blocks.isEmpty then blocksFromOcr ocr.blocks
    else .ok blocks
  match blocksE with
  | .error e => .error e
  | .ok blocks2 =>
    let keyValues := extractKeyValues ocr.full_text
    .ok { title := extractTitle blocks2,
          blocks := blocks2,
          metadata := buildMetadata ocr layout tableResult keyValues,
          tables := match tableResult with
            | some tr => tr.tables
            | Option.none => [],
          key_values := keyValues,
          raw_text := ocr.full_text }

/-- A small fixture: one region, one table, one key-value line. -/
def demoOcr : OcrResult :=
  { blocks := [], full_text := "Total: 5", average_confidence := mkRat 9 10,
    languages_detected := ["en"] }

def demoLayout : LayoutIn :=
  { regions := [{ type := "paragraph",
                  bbox := (mkRat 0 1, mkRat 0 1, mkRat 10 1, mkRat 10 1),
                  confidence := mkRat 7 10 }],
    page_size := (mkRat 100 1, mkRat 100 1), has_tables := false, has_figures := false }

def demoTables : TableResultIn :=
  { tables := [{ bbox := (mkRat 0 1, mkRat 0 1, mkRat 10 1, mkRat 10 1),
                 matrix := [["a"]] }] }

/-- The number of tables supplied (0 when no table result is given). -/
def tableCountOf : Option TableResultIn → ℕ
  | some tr => tr.tables.length
  | Option.none => 0

theorem structureDoc_fields (ocr : OcrResult) (layout : LayoutIn)
    (tableResult : Option TableResultIn) (d : StructuredDocument)
    (h : structureDoc ocr layout tableResult = .ok d) :
    d.metadata.num_regions = layout.regions.length ∧
    d.metadata.num_tables = tableCountOf tableResult ∧
    d.metadata.num_key_values = (extractKeyValues ocr.full_text).length ∧
    d.tables.length = d.metadata.num_tables ∧
    d.key_values.length = d.metadata.num_key_values := by
  simp only [structureDoc] at h
  split at h
  · simp at h
  · simp only [Except.ok.injEq] at h
    rw [← h]
    refine ⟨rfl, ?_, rfl, ?_, rfl⟩
    · cases tableResult <;> rfl
    · cases tableResult <;> rfl

/-- C8: on every input on which `structure` returns a document, the
metadata counts equal the input cardinalities (and the document's own
table list and key-value mapping lengths); the demo fixture shows the
success path is inhabited. -/
theorem metadata_counts_roundtrip (ocr : OcrResult) (layout : LayoutIn)
    (tableResult : Option TableResultIn) :
    ((structureDoc ocr layout tableResult).map fun d =>
        (d.metadata.num_regions, d.metadata.num_tables, d.metadata.num_key_values,
          d.tables.length, d.key_values.length)) =
      ((structureDoc ocr layout tableResult).map fun _ =>
        (layout.regions.length, tableCountOf tableResult,
          (extractKeyValues ocr.full_text).length,
          tableCountOf tableResult,
          (extractKeyValues ocr.full_text).length)) ∧
    (structureDoc demoOcr demoLayout (some demoTables)).toOption.isSome = true := by
  constructor
  · cases hE : structureDoc ocr layout tableResult with
    | error e => rfl
    | ok d =>
      obtain ⟨h1, h2, h3, h4, h5⟩ := structureDoc_fields ocr layout tableResult d hE
      simp only [Except.map]
      rw [h1, h2, h3, h4, h5, h2, h3]
  · decide

end Structa.Structuring

/-!  ## Error correction (processors/error_correction.py)

The `ErrorCorrector` class: word-level correction of common OCR errors,
with punctuation preserved around each whitespace-separated token and a
final spacing clean-up.  `SequenceMatcher` similarity is modelled
exactly (autojunk never fires on the short dictionary words involved);
the `0.8` threshold appears as the exact rational 4/5 where Python
compares floats, and `domain_words` (a Python set, iterated in an
unspecified order) is kept as the literal list; none of the theorems
below depends on either choice.  Character predicates (`isalnum`,
`isdigit`, case mapping) are taken in their ASCII reading. -/

namespace Structa.ErrorCorrection

open Structa

/-- The constructor field `substitutions`: built by `__init__` but never
read by any method of the class (kept for fidelity). -/
def substitutions : List (String × List String) :=
  [("0", ["O", "o", "Q"]), ("1", ["l", "I", "i", "|"]), ("5", ["S", "s"]),
   ("6", ["G", "b"]), ("8", ["B"]), ("2", ["Z", "z"]), ("O", ["0", "Q"]),
   ("l", ["1", "I", "|"]), ("rn", ["m"]), ("vv", ["w"]), ("cl", ["d"]),
   ("cI", ["d"])]

/-- `word_corrections`, in dict insertion order (all keys distinct). -/
def word_corrections : List (String × String) :=
  [("teh", "the"), ("adn", "and"), ("fo", "of"), ("ot", "to"),
   ("taht", "that"), ("wiht", "with"), ("fro", "for"), ("jsut", "just"),
   ("nto", "not"), ("hte", "the")]

/-- `domain_words`, in the order of the set literal. -/
def domain_words : List String :=
  ["invoice", "receipt", "total", "subtotal", "tax", "amount",
   "date", "number", "quantity", "price", "description", "unit",
   "customer", "vendor", "address", "phone", "email", "payment",
   "due", "balance", "paid", "discount", "shipping", "handling"]

/-- Python `str.upper()` (ASCII). -/
def pyUpperAll (cs : List Char) : List Char := cs.map Char.toUpper

/-- Python `str.capitalize()` (ASCII): first character upper-cased, the
rest lower-cased. -/
def pyCapitalize : List Char → List Char
  | [] => []
  | c :: rest => c.toUpper :: rest.map Char.toLower

/-- Case preservation applied to a corrected word: the
`word.isupper()` / `word[0].isupper()` branches shared by the
word-correction and domain-match paths of `_correct_word`. -/
def applyCase (word corrected : List Char) : List Char :=
  if Structuring.pyIsUpper word then pyUpperAll corrected
  else if (word.headD ' ').isUpper then pyCapitalize corrected
  else corrected

/-- The character class S of the regex in `_looks_like_number`, where S
holds the digits and the characters O o I l vertical-bar . , - dollar
percent. -/
def isNumItemChar (c : Char) : Bool :=
  c.isDigit || c = 'O' || c = 'o' || c = 'I' || c = 'l' || c = '|' ||
    c = '.' || c = ',' || c = '-' || c = '$' || c = '%'

/-- `_looks_like_number`: after deleting the number-like characters, at
most 30 percent of the text remains.  Python compares
`len(cleaned) <= len(text) * 0.3` in floating point; the rational
inequality below agrees with the float one for every pair of lengths up
to 2000 (checked exhaustively), far beyond any word length arising. -/
def looksLikeNumber (cs : List Char) : Bool :=
  10 * (cs.filter fun c => !isNumItemChar c).length ≤ 3 * cs.length

/-- `_correct_number`: per-character substitution table (no key is a
digit, so the `isdigit` guard of the source never fires). -/
def correctNumber (cs : List Char) : List Char :=
  cs.map fun c =>
    if c = 'O' || c = 'o' then '0'
    else if c = 'I' || c = 'l' || c = '|' then '1'
    else if c = 'S' || c = 's' then '5'
    else if c = 'B' then '8'
    else if c = 'Z' || c = 'z' then '2'
    else c

/-- Length of the run of equal characters at the heads of two lists. -/
def commonRunLen : List Char → List Char → ℕ
  | a :: as2, b :: bs => if a = b then commonRunLen as2 bs + 1 else 0
  | _, _ => 0

/-- `difflib` `find_longest_match` with no junk: the first longest
matching block (lowest start in `a`, then in `b`), as
(start in a, start in b, length).  The stdlib scans ends with a strict
improvement test; blocks of equal length are ordered the same by start
and by end, so the strict fold over starts below picks the same block. -/
def longestMatch (a b : List Char) : ℕ × ℕ × ℕ :=
  (((List.range a.length).map fun i =>
      (List.range b.length).map fun j =>
        (i, j, commonRunLen (a.drop i) (b.drop j))).flatten).foldl
    (fun best c => if best.2.2 < c.2.2 then c else best) (0, 0, 0)

/-- Total size of the blocks of `get_matching_blocks`: recursive split
at the longest match.  Each split consumes a nonempty block, so the
fuel, one more than the sum of lengths, is never exhausted. -/
def matchSizeAux : ℕ → List Char → List Char → ℕ
  | 0, _, _ => 0
  | fuel + 1, a, b =>
    let m := longestMatch a b
    if m.2.2 = 0 then 0
    else
      matchSizeAux fuel (a.take m.1) (b.take m.2.1) + m.2.2 +
        matchSizeAux fuel (a.drop (m.1 + m.2.2)) (b.drop (m.2.1 + m.2.2))

def matchSize (a b : List Char) : ℕ :=
  matchSizeAux (a.length + b.length + 1) a b

/-- `SequenceMatcher.ratio()`: twice the matched size over the total
length, as an exact rational (`1` on two empty strings). -/
def similarityScore (a b : List Char) : ℚ :=
  if a.length + b.length = 0 then mkRat 1 1
  else mkRat (2 * matchSize a b) (a.length + b.length)

/-- `_find_best_match`: skip dictionary entries whose length differs by
more than 2, keep the first strict improvement over the running best
score, which starts at the `0.8` threshold.  No achievable score other
than 4/5 itself lies between the rational 4/5 and the double `0.8`, so
the strict float comparison agrees with the rational one. -/
def findBestMatch (word : List Char) (dictionary : List String) :
    Option (List Char × ℚ) :=
  let r := dictionary.foldl
    (fun (best : Option (List Char) × ℚ) dw =>
      if 2 < ((word.length : ℤ) - (dw.length : ℤ)).natAbs then best
      else
        let score := similarityScore word dw.data
        if ratLt best.2 score then (some dw.data, score) else best)
    (Option.none, mkRat 4 5)
  match r.1 with
  | some m => some (m, r.2)
  | Option.none => Option.none

/-- `_correct_word` (the unused `context` argument is dropped): direct
word correction with case preserved, then the domain whitelist, then
number-shape substitutions, then a fuzzy domain match above `0.8`. -/
def correctWord (word : List Char) : List Char × String :=
  let lower := word.map Char.toLower
  match word_corrections.find? fun p => p.1.data == lower with
  | some p => (applyCase word p.2.data, "word_correction")
  | Option.none =>
    if domain_words.any fun w => w.data == lower then (word, "no_correction")
    else
      let tryNum : Option (List Char × String) :=
        if looksLikeNumber word then
          let c := correctNumber word
          if c == word then Option.none else some (c, "number_correction")
        else Option.none
      match tryNum with
      | some r => r
      | Option.none =>
        match findBestMatch lower domain_words with
        | some m =>
          if ratLt (mkRat 4 5) m.2 then (applyCase word m.1, "domain_match")
          else (word, "no_correction")
        | Option.none => (word, "no_correction")

/-- One correction record, as built by `correct`:
original, corrected, correction type. -/
structure Correction where
  original : String
  corrected : String
  type : String
deriving DecidableEq

/-- One whitespace token of `correct`: strip leading and trailing
non-alphanumeric characters, correct the core word, reattach the
punctuation, and report a record exactly when the core changed. -/
def correctToken (w : List Char) : List Char × Option Correction :=
  let lead := w.takeWhile fun c => !c.isAlphanum
  let rest := w.dropWhile fun c => !c.isAlphanum
  let core := (rest.reverse.dropWhile fun c => !c.isAlphanum).reverse
  let trail := (rest.reverse.takeWhile fun c => !c.isAlphanum).reverse
  if core.isEmpty then (lead ++ trail, Option.none)
  else
    let r := correctWord core
    (lead ++ r.1 ++ trail,
      if r.1 == core then Option.none
      else some ⟨String.mk core, String.mk r.1, r.2⟩)

def isSpaceCh (c : Char) : Bool := c = ' '

/-- Punctuation class `. , ; : ! ?` of the spacing fixes. -/
def isPunctFix (c : Char) : Bool :=
  c = '.' || c = ',' || c = ';' || c = ':' || c = '!' || c = '?'

/-- First spacing fix: collapse each run of spaces to one space.  Each
step consumes at least one character, so a fuel of the input length
(supplied by the wrapper below) never runs out. -/
def collapseSpaceRunsAux : ℕ → List Char → List Char
  | 0, _ => []
  | _, [] => []
  | fuel + 1, c :: rest =>
    if isSpaceCh c then ' ' :: collapseSpaceRunsAux fuel (rest.dropWhile isSpaceCh)
    else c :: collapseSpaceRunsAux fuel rest

def collapseSpaceRuns (cs : List Char) : List Char :=
  collapseSpaceRunsAux cs.length cs

/-- Second fix: delete a space standing before sentence punctuation. -/
def fixSpaceBeforePunct : List Char → List Char
  | ' ' :: c :: rest =>
    if isPunctFix c then c :: fixSpaceBeforePunct rest
    else ' ' :: fixSpaceBeforePunct (c :: rest)
  | c :: rest => c :: fixSpaceBeforePunct rest
  | [] => []

/-- Third fix: insert a space between punctuation and a letter. -/
def fixSpaceAfterPunct : List Char → List Char
  | p :: c :: rest =>
    if isPunctFix p && c.isAlpha then p :: ' ' :: c :: fixSpaceAfterPunct rest
    else p :: fixSpaceAfterPunct (c :: rest)
  | l => l

/-- Fourth fix: delete the spaces following a dollar sign (fuel as in
the first fix: at least one character goes per step). -/
def fixCurrencySpacingAux : ℕ → List Char → List Char
  | 0, _ => []
  | _, [] => []
  | fuel + 1, '$' :: c :: rest =>
    if isSpaceCh c then '$' :: fixCurrencySpacingAux fuel ((c :: rest).dropWhile isSpaceCh)
    else '$' :: fixCurrencySpacingAux fuel (c :: rest)
  | fuel + 1, c :: rest => c :: fixCurrencySpacingAux fuel rest

def fixCurrencySpacing (cs : List Char) : List Char :=
  fixCurrencySpacingAux cs.length cs

/-- Fifth fix: delete the spaces between a digit and a percent sign
(scanning resumes after the consumed percent sign, as `re.sub` does;
fuel as in the first fix). -/
def fixPercentSpacingAux : ℕ → List Char → List Char
  | 0, _ => []
  | _, [] => []
  | fuel + 1, c :: rest =>
    if c.isDigit && !(rest.takeWhile isSpaceCh).isEmpty &&
        (rest.dropWhile isSpaceCh).headD 'x' = '%' then
      c :: '%' :: fixPercentSpacingAux fuel (rest.dropWhile isSpaceCh).tail
    else c :: fixPercentSpacingAux fuel rest

def fixPercentSpacing (cs : List Char) : List Char :=
  fixPercentSpacingAux cs.length cs

/-- `_fix_spacing`: the five regex passes followed by `strip()`. -/
def fixSpacing (cs : List Char) : List Char :=
  pyStrip (fixPercentSpacing (fixCurrencySpacing (fixSpaceAfterPunct
    (fixSpaceBeforePunct (collapseSpaceRuns cs)))))

/-- `correct` (the unused `context` and `domain` arguments dropped):
split on whitespace, correct each token with punctuation preserved,
collect a record per changed core word in order, join with single
spaces and run the spacing fixes. -/
def correct (text : String) : String × List Correction :=
  let toks := (pySplitWs text.data).map correctToken
  let joined := joinSpaces (toks.map fun t => String.mk t.1)
  (String.mk (fixSpacing joined.data), toks.filterMap Prod.snd)

/-- C9: correct("teh Total") returns the corrected text "the Total"
together with exactly one correction record, of type word_correction,
recording original "teh" and corrected "the"; the word "Total" is a
known domain term and is left unchanged with no record. -/
theorem correct_example :
    correct "teh Total" =
      ("the Total",
        [{ original := "teh", corrected := "the", type := "word_correction" }]) := by
  decide

end Structa.ErrorCorrection
